import Mathlib

/-!
Verification of the caption-segmentation and subtitle-timeline core of the
yt-shorts repository.  Python source functions are shallowly embedded as
executable Lean definitions over rationals (Python floats) and `List Char`
(Python strings); imperative accumulator loops become folds or structural
recursions, and Python exceptions become `Option`/`Except` values.
-/

/-- Named code points (backslash, braces, newline), built from their
numeric codes so no escape sequences appear in the development. -/
def bsChar : Char := Char.ofNat 92

def lbChar : Char := Char.ofNat 123

def rbChar : Char := Char.ofNat 125

def nlChar : Char := Char.ofNat 10

/-- A Python string, represented as its character list. -/
abbrev Str := List Char

/-- Value of a decimal digit character, `none` if not a digit. -/
def digitVal? (c : Char) : Option ℕ :=
  if '0' ≤ c ∧ c ≤ '9' then some (c.toNat - '0'.toNat) else none

def isDigitChar (c : Char) : Bool := decide ('0' ≤ c ∧ c ≤ '9')

/-- Decimal value of a digit string (assuming all digits). -/
def digitsToNat (l : Str) : ℕ :=
  l.foldl (fun acc c => 10 * acc + (c.toNat - '0'.toNat)) 0

def digitChar (n : ℕ) : Char := Char.ofNat ('0'.toNat + n)

/-- Decimal rendering of a natural number, with explicit fuel so that the
recursion is structural (kernel-reducible). -/
def natToCharsAux : ℕ → ℕ → Str
  | 0, _ => []
  | fuel + 1, n =>
    if n < 10 then [digitChar n]
    else natToCharsAux fuel (n / 10) ++ [digitChar (n % 10)]

def natToChars (n : ℕ) : Str := natToCharsAux (n + 1) n

/-- Decimal rendering of an integer (Python `repr` of an `int`). -/
def intToChars (n : ℤ) : Str :=
  if n < 0 then '-' :: natToChars (-n).toNat else natToChars n.toNat

/-- Python `f"{n:02d}"`: pad the decimal rendering to width 2 with zeros. -/
def pad2 (n : ℤ) : Str :=
  let s := intToChars n
  if s.length < 2 then List.replicate (2 - s.length) '0' ++ s else s

/-- Python whitespace test (ASCII fragment, which is all the inputs use). -/
def isWs (c : Char) : Bool := c = ' ' ∨ c = '\t' ∨ c = nlChar ∨ c = '\r'

/-- Drop leading whitespace. -/
def dropLeadWs : Str → Str
  | [] => []
  | x :: xs => if isWs x then dropLeadWs xs else x :: xs

/-- Drop trailing whitespace. -/
def dropTrailWs : Str → Str
  | [] => []
  | x :: xs =>
    let r := dropTrailWs xs
    if r = [] ∧ isWs x then [] else x :: r

/-- Python `str.strip()`. -/
def pyStrip (l : Str) : Str := dropTrailWs (dropLeadWs l)

/-- Split a character list at every occurrence of character `c`
(Python `str.split(c)` for a single-character separator). -/
def splitOnChar (c : Char) : Str → List Str
  | [] => [[]]
  | x :: xs =>
    if x = c then [] :: splitOnChar c xs
    else
      match splitOnChar c xs with
      | [] => [[x]]
      | p :: ps => (x :: p) :: ps

/-- Does `pat` occur as a prefix of `l`? -/
def isPrefixB : Str → Str → Bool
  | [], _ => true
  | _ :: _, [] => false
  | p :: ps, x :: xs => p = x && isPrefixB ps xs

/-- Does `pat` occur as a substring of `l` (Python `pat in l`)? -/
def containsSub (pat : Str) : Str → Bool
  | [] => isPrefixB pat []
  | x :: xs => isPrefixB pat (x :: xs) || containsSub pat xs

/-- Split on a multi-character separator, leftmost-first, non-overlapping,
with explicit fuel to keep the recursion structural. -/
def splitOnSubAux (sep : Str) : ℕ → Str → List Str
  | 0, l => [l]
  | _ + 1, [] => [[]]
  | fuel + 1, x :: xs =>
    if sep ≠ [] ∧ isPrefixB sep (x :: xs) then
      [] :: splitOnSubAux sep fuel ((x :: xs).drop sep.length)
    else
      match splitOnSubAux sep fuel xs with
      | [] => [[x]]
      | p :: ps => (x :: p) :: ps

/-- Python `str.split(sep)` for a non-empty separator string. -/
def splitOnSub (sep l : Str) : List Str := splitOnSubAux sep l.length l

/-- Python `str.replace(a, b)` for single-character `a` replaced by a string. -/
def replaceCharBy (a : Char) (b : Str) : Str → Str
  | [] => []
  | x :: xs => (if x = a then b else [x]) ++ replaceCharBy a b xs

/-- Python `str.upper()` (ASCII). -/
def upperStr (l : Str) : Str :=
  l.map fun c => if 'a' ≤ c ∧ c ≤ 'z' then Char.ofNat (c.toNat - 32) else c

/-- Python `' '.join`. -/
def joinSp : List Str → Str
  | [] => []
  | [x] => x
  | x :: y :: ys => x ++ ' ' :: joinSp (y :: ys)

/-- Strip one optional leading sign, returning (isNegative, rest). -/
def splitSign (t : Str) : Bool × Str :=
  if t.head? = some '-' then (true, t.tail)
  else if t.head? = some '+' then (false, t.tail)
  else (false, t)

/-- Python `int(s)`: optional sign followed by a non-empty digit string
(whitespace-stripped); `none` models a raised `ValueError`. -/
def pyInt? (l : Str) : Option ℤ :=
  let (neg, d) := splitSign (pyStrip l)
  if d ≠ [] ∧ d.all isDigitChar then
    some (if neg then -(digitsToNat d : ℤ) else (digitsToNat d : ℤ))
  else none

/-- Parse an unsigned decimal literal `ddd`, `ddd.ddd`, `ddd.` or `.ddd`
to a rational. -/
def decLit? (l : Str) : Option ℚ :=
  match splitOnChar '.' l with
  | [ip] =>
    if ip ≠ [] ∧ ip.all isDigitChar then some (digitsToNat ip : ℚ) else none
  | [ip, fp] =>
    if (ip ≠ [] ∨ fp ≠ []) ∧ ip.all isDigitChar ∧ fp.all isDigitChar then
      some ((digitsToNat ip : ℚ) + (digitsToNat fp : ℚ) / 10 ^ fp.length)
    else none
  | _ => none

/-- Python `float(s)` on the decimal forms the pipeline's inputs use;
`none` models a raised `ValueError`. -/
def pyFloat? (l : Str) : Option ℚ :=
  let (neg, d) := splitSign (pyStrip l)
  (decLit? d).map (fun q => if neg then -q else q)

/-- Python `int()` applied to a float: truncation toward zero. -/
def pyTrunc (q : ℚ) : ℤ := if q < 0 then -⌊-q⌋ else ⌊q⌋

/-- Python `x // y` on floats: floor division. -/
def pyFloorDiv (x y : ℚ) : ℚ := ⌊x / y⌋

/-- Python `x % y` on floats (for positive `y`). -/
def pyMod (x y : ℚ) : ℚ := x - y * ⌊x / y⌋

-- Sanity checks for the primitives (concrete evaluation).
example : natToChars 705 = ['7', '0', '5'] := by decide
example : pyInt? ('0' :: '7' :: []) = some 7 := by decide
example : pyFloat? ('1' :: '2' :: '.' :: '7' :: '5' :: []) = some (51 / 4) := by
  simp [pyFloat?, decLit?, pyStrip, dropLeadWs, dropTrailWs, isWs, splitSign,
    splitOnChar, digitsToNat, isDigitChar, nlChar]
  norm_num
example : splitOnChar ':' ('a' :: ':' :: 'b' :: []) = [['a'], ['b']] := by decide
example : pyTrunc (-7 / 2) = -3 := by norm_num [pyTrunc]

/-! ## Word grouping (`create_ai_captions.create_caption_groups`)

AssemblyAI word records carry millisecond timestamps; the grouper converts
them to seconds when it emits a caption.  `stop` stands for the Python
key `end` (a Lean keyword). -/

structure AIWord where
  text : Str
  start : ℚ
  stop : ℚ
  deriving DecidableEq, Repr

/-- Placeholder word, used only to make head/last access total; the source
indexes `current_group[0]` / `current_group[-1]` only on non-empty groups. -/
def dAIWord : AIWord := ⟨[], 0, 0⟩

structure Caption where
  words : List AIWord
  text : Str
  start : ℚ
  stop : ℚ
  deriving DecidableEq, Repr

/-- `any(p in word['text'] for p in ['.', '!', '?', ','])`. -/
def hasPunct (t : Str) : Bool :=
  t.any fun c => c = '.' || c = '!' || c = '?' || c = ','

/-- The caption record the source appends when it flushes `current_group`. -/
def mkCaption (c : List AIWord) : Caption :=
  { words := c
    text := joinSp (c.map (·.text))
    start := (c.headD dAIWord).start / 1000
    stop := (c.getLastD dAIWord).stop / 1000 }

/-- The word loop of `create_caption_groups`: `current` is the mutable
`current_group`, the result collects the flushed captions in order. -/
def create_caption_groups_go (current : List AIWord) : List AIWord → List Caption
  | [] => if current = [] then [] else [mkCaption current]
  | w :: ws =>
    if current = [] ∨ 4 ≤ current.length ∨ hasPunct w.text = true ∨
        (current ≠ [] ∧ (w.start - (current.headD dAIWord).start) / 1000 > 3) then
      (if current = [] then [] else [mkCaption current]) ++
        create_caption_groups_go [w] ws
    else
      create_caption_groups_go (current ++ [w]) ws

/-- `create_caption_groups` from `create_ai_captions.py`. -/
def create_caption_groups (words : List AIWord) : List Caption :=
  if words = [] then [] else create_caption_groups_go [] words

/-- The flushed groups of the word loop partition `current ++ ws`. -/
theorem create_caption_groups_go_join (ws : List AIWord) :
    ∀ current, ((create_caption_groups_go current ws).map (·.words)).flatten
      = current ++ ws := by
  induction ws with
  | nil =>
    intro current
    by_cases h : current = [] <;>
      simp [create_caption_groups_go, h, mkCaption]
  | cons w ws ih =>
    intro current
    rw [create_caption_groups_go]
    by_cases hsplit : current = [] ∨ 4 ≤ current.length ∨ hasPunct w.text = true ∨
        (current ≠ [] ∧ (w.start - (current.headD dAIWord).start) / 1000 > 3)
    · rw [if_pos hsplit]
      by_cases h : current = [] <;>
        simp [h, mkCaption, ih]
    · rw [if_neg hsplit]
      rw [ih]
      simp

/-- C2: for every non-empty input word sequence, concatenating the `words`
lists of the groups returned by `create_caption_groups` reconstructs the
input exactly — no word duplicated, dropped, or reordered. -/
theorem C2_groupWords_reconstruct (words : List AIWord) (h : words ≠ []) :
    ((create_caption_groups words).map (·.words)).flatten = words := by
  rw [create_caption_groups, if_neg h, create_caption_groups_go_join]
  simp

/-- Witness for C2 at a concrete two-word input. -/
theorem C2_groupWords_reconstruct_witness :
    (([⟨['h', 'i'], 0, 1⟩, ⟨['y', 'o'], 1, 2⟩] : List AIWord) ≠ []) ∧
      ((create_caption_groups [⟨['h', 'i'], 0, 1⟩, ⟨['y', 'o'], 1, 2⟩]).map
        (·.words)).flatten = [⟨['h', 'i'], 0, 1⟩, ⟨['y', 'o'], 1, 2⟩] :=
  ⟨by simp, C2_groupWords_reconstruct _ (by simp)⟩

/-- Only the first word of a flushed group can carry punctuation: the loop
appends a word to the group in progress only when its text has none. -/
theorem create_caption_groups_go_tail_punct (ws : List AIWord) :
    ∀ current, (∀ w ∈ current.tail, hasPunct w.text = false) →
      ∀ g ∈ create_caption_groups_go current ws,
        ∀ w ∈ g.words.tail, hasPunct w.text = false := by
  induction ws with
  | nil =>
    intro current hcur g hg
    by_cases h : current = []
    · simp [create_caption_groups_go, h] at hg
    · rw [create_caption_groups_go, if_neg h] at hg
      simp at hg
      subst hg
      simpa [mkCaption] using hcur
  | cons w ws ih =>
    intro current hcur g hg
    rw [create_caption_groups_go] at hg
    by_cases hsplit : current = [] ∨ 4 ≤ current.length ∨ hasPunct w.text = true ∨
        (current ≠ [] ∧ (w.start - (current.headD dAIWord).start) / 1000 > 3)
    · rw [if_pos hsplit] at hg
      rcases List.mem_append.mp hg with hflush | hrest
      · by_cases h : current = []
        · simp [h] at hflush
        · rw [if_neg h] at hflush
          simp at hflush
          subst hflush
          simpa [mkCaption] using hcur
      · exact ih [w] (by simp) g hrest
    · rw [if_neg hsplit] at hg
      push_neg at hsplit
      refine ih (current ++ [w]) ?_ g hg
      intro x hx
      rcases current with _ | ⟨c, cs⟩
      · exact absurd rfl hsplit.1
      · simp at hx
        rcases hx with hx | hx
        · exact hcur x (by simpa using hx)
        · subst hx
          simpa using hsplit.2.2.1

/-- The three-word example of the grouping claim: `Hi`, `there,`, `friend`. -/
def c1ExWords : List AIWord :=
  [⟨['H', 'i'], 0, 3 / 10⟩,
   ⟨['t', 'h', 'e', 'r', 'e', ','], 3 / 10, 6 / 10⟩,
   ⟨['f', 'r', 'i', 'e', 'n', 'd'], 6 / 10, 9 / 10⟩]

/-- Evaluation of the grouper on the three-word example. -/
theorem c1ExWords_eval :
    (create_caption_groups c1ExWords).map (·.text) =
      [['H', 'i'], ['t', 'h', 'e', 'r', 'e', ',', ' ', 'f', 'r', 'i', 'e', 'n', 'd']] := by
  simp [c1ExWords, create_caption_groups, create_caption_groups_go, hasPunct,
    mkCaption, joinSp]
  norm_num [create_caption_groups_go, mkCaption, joinSp]

/-- C1 counterexample: on the spec's own example, the comma-carrying word
does not end its group — the grouper yields the groups `Hi` and
`there, friend`, not `Hi there,` and `friend`. -/
theorem C1_counterexample :
    (create_caption_groups c1ExWords).map (·.text) =
      [['H', 'i'], ['t', 'h', 'e', 'r', 'e', ',', ' ', 'f', 'r', 'i', 'e', 'n', 'd']]
    ∧ [['H', 'i'], ['t', 'h', 'e', 'r', 'e', ',', ' ', 'f', 'r', 'i', 'e', 'n', 'd']] ≠
      [['H', 'i', ' ', 't', 'h', 'e', 'r', 'e', ','], ['f', 'r', 'i', 'e', 'n', 'd']] :=
  ⟨c1ExWords_eval, by decide⟩

/-- C1 amended: a word whose text contains `.`, `!`, `?` or `,` triggers the
flush before it is appended, so a punctuated word is always the first word
of its group (no group carries punctuation after position 0), and the
example input groups as `[Hi]` and `[there, friend]`. -/
theorem C1_punct_word_starts_group :
    (∀ words g, g ∈ create_caption_groups words →
        ∀ w ∈ g.words.tail, hasPunct w.text = false) ∧
      (create_caption_groups c1ExWords).map (·.text) =
        [['H', 'i'], ['t', 'h', 'e', 'r', 'e', ',', ' ', 'f', 'r', 'i', 'e', 'n', 'd']] := by
  constructor
  · intro words g hg w hw
    rcases eq_or_ne words [] with h | h
    · simp [create_caption_groups, h] at hg
    · rw [create_caption_groups, if_neg h] at hg
      exact create_caption_groups_go_tail_punct words [] (by simp) g hg w hw
  · exact c1ExWords_eval

/-! ## Word grouping (`create_word_captions.create_word_groups` and
`create_whisper_captions.create_word_groups_from_whisper`)

Both groupers consume word-timing records (key `word`, times in seconds)
and emit groups that carry only `text`/`start`/`end` — no word list — with
a 0.1 s readability buffer added to the group end. -/

structure WT where
  word : Str
  start : ℚ
  stop : ℚ
  deriving DecidableEq, Repr

/-- Placeholder timing record for total head/last access. -/
def dWT : WT := ⟨[], 0, 0⟩

structure WGroup where
  text : Str
  start : ℚ
  stop : ℚ
  deriving DecidableEq, Repr

/-- The group record both groupers append: space-joined words, start of the
first word, end of the last word plus the 0.1 s buffer. -/
def mkWGroup (c : List WT) : WGroup :=
  { text := joinSp (c.map (·.word))
    start := (c.headD dWT).start
    stop := (c.getLastD dWT).stop + 1 / 10 }

/-- The group size `create_word_groups` picks from the words left at `i`. -/
def cwgSize (l : List WT) : ℕ :=
  if 4 ≤ l.length then 3
  else if 3 ≤ l.length then 3
  else if 2 ≤ l.length then 2
  else 1

/-- The while-loop of `create_word_groups` over the remaining suffix. -/
def create_word_groups_go : List WT → List WGroup
  | [] => []
  | x :: xs =>
    mkWGroup ((x :: xs).take (cwgSize (x :: xs))) ::
      create_word_groups_go ((x :: xs).drop (cwgSize (x :: xs)))
termination_by l => l.length
decreasing_by
  have h1 : 1 ≤ cwgSize (x :: xs) := by
    simp only [cwgSize]
    split_ifs <;> omega
  simp only [List.length_drop, List.length_cons]
  omega

/-- `create_word_groups` from `create_word_captions.py`; the
`words_per_group` parameter appears in the signature but is never read. -/
def create_word_groups (word_timings : List WT) (words_per_group : ℕ := 3) :
    List WGroup :=
  create_word_groups_go word_timings

/-- Plain take-3 chunking: what the loop's size logic amounts to. -/
def chunk3 : List WT → List (List WT)
  | [] => []
  | x :: xs => (x :: xs).take 3 :: chunk3 ((x :: xs).drop 3)
termination_by l => l.length
decreasing_by
  simp only [List.length_drop, List.length_cons]
  omega

/-- The grouping loop is exactly take-3 chunking followed by `mkWGroup`. -/
theorem create_word_groups_go_eq_chunk3 (l : List WT) :
    create_word_groups_go l = (chunk3 l).map mkWGroup := by
  induction l using create_word_groups_go.induct with
  | case1 => simp [create_word_groups_go, chunk3]
  | case2 x xs ih =>
    rw [create_word_groups_go, chunk3]
    by_cases h3 : 3 ≤ (x :: xs).length
    · have hs : cwgSize (x :: xs) = 3 := by
        simp only [cwgSize]
        split_ifs <;> omega
      rw [hs] at ih ⊢
      rw [List.map_cons]
      exact congrArg (List.cons _) ih
    · have hlen : (x :: xs).length ≤ 3 := by omega
      have hlen2 : (x :: xs).length ≤ cwgSize (x :: xs) := by
        simp only [cwgSize]
        split_ifs <;> omega
      rw [List.take_of_length_le hlen2, List.take_of_length_le hlen,
        List.drop_eq_nil_of_le hlen2, List.drop_eq_nil_of_le hlen]
      simp [create_word_groups_go, chunk3]

/-- C10: the `words_per_group` parameter of `create_word_groups` has no
effect — any two parameter values give identical output, and the function
always chunks three words at a time (a shorter final chunk when fewer
remain). -/
theorem C10_words_per_group_unused :
    ∀ (wt : List WT) (a b : ℕ),
      create_word_groups wt a = create_word_groups wt b ∧
        create_word_groups wt a = (chunk3 wt).map mkWGroup :=
  fun wt _ _ => ⟨rfl, create_word_groups_go_eq_chunk3 wt⟩

/-- Pause between word `j` and word `j+1` of the remaining suffix. -/
def gapAt (l : List WT) (j : ℕ) : ℚ :=
  (l.getD (j + 1) dWT).start - (l.getD j dWT).stop

/-- Group size chosen by `create_word_groups_from_whisper`: 3 by default,
cut after word `j` at the first pause longer than 0.5 s among `j = 1, 2, 3`,
then clamped to the words remaining. -/
def whisperSize (l : List WT) : ℕ :=
  let n := l.length
  let gs : ℕ :=
    if 3 < n then
      if 1 < n - 1 ∧ gapAt l 1 > 1 / 2 then 2
      else if 2 < n - 1 ∧ gapAt l 2 > 1 / 2 then 3
      else if 3 < n - 1 ∧ gapAt l 3 > 1 / 2 then 4
      else 3
    else 3
  min gs n

/-- The while-loop of `create_word_groups_from_whisper`. -/
def create_word_groups_from_whisper_go : List WT → List WGroup
  | [] => []
  | x :: xs =>
    mkWGroup ((x :: xs).take (whisperSize (x :: xs))) ::
      create_word_groups_from_whisper_go ((x :: xs).drop (whisperSize (x :: xs)))
termination_by l => l.length
decreasing_by
  have h1 : 1 ≤ whisperSize (x :: xs) := by
    simp only [whisperSize]
    split_ifs <;> simp <;> omega
  simp only [List.length_drop, List.length_cons]
  omega

/-- `create_word_groups_from_whisper` from `create_whisper_captions.py`;
its `words_per_group` parameter is likewise never read. -/
def create_word_groups_from_whisper (words : List WT)
    (words_per_group : ℕ := 3) : List WGroup :=
  create_word_groups_from_whisper_go words

/-- Every chunk of `chunk3` is a non-empty contiguous run of the input. -/
theorem chunk3_mem (l : List WT) :
    ∀ c ∈ chunk3 l, c ≠ [] ∧ c.IsInfix l := by
  induction l using chunk3.induct with
  | case1 => simp [chunk3]
  | case2 x xs ih =>
    intro c hc
    rw [chunk3] at hc
    rcases List.mem_cons.mp hc with hc | hc
    · subst hc
      exact ⟨by simp, ( List.take_prefix 3 (x :: xs)).isInfix⟩
    · obtain ⟨hne, hinf⟩ := ih c hc
      exact ⟨hne, hinf.trans ((x :: xs).drop_suffix 3).isInfix⟩

/-- Every whisper group is `mkWGroup` of a non-empty contiguous run. -/
theorem create_word_groups_from_whisper_go_mem (l : List WT) :
    ∀ g ∈ create_word_groups_from_whisper_go l,
      ∃ c, c ≠ [] ∧ c.IsInfix l ∧ g = mkWGroup c := by
  induction l using create_word_groups_from_whisper_go.induct with
  | case1 => simp [create_word_groups_from_whisper_go]
  | case2 x xs ih =>
    intro g hg
    rw [create_word_groups_from_whisper_go] at hg
    rcases List.mem_cons.mp hg with hg | hg
    · refine ⟨(x :: xs).take (whisperSize (x :: xs)), ?_,
        ( List.take_prefix _ (x :: xs)).isInfix, hg⟩
      have h1 : 1 ≤ whisperSize (x :: xs) := by
        simp only [whisperSize]
        split_ifs <;> simp <;> omega
      simp [List.take_eq_nil_iff]
      omega
    · obtain ⟨c, hne, hinf, heq⟩ := ih g hg
      exact ⟨c, hne, hinf.trans ((x :: xs).drop_suffix _).isInfix, heq⟩

/-- Every flushed caption of the word loop is `mkCaption` of a non-empty
word run. -/
theorem create_caption_groups_go_shape (ws : List AIWord) :
    ∀ current, ∀ g ∈ create_caption_groups_go current ws,
      ∃ c, c ≠ [] ∧ g = mkCaption c := by
  induction ws with
  | nil =>
    intro current g hg
    by_cases h : current = []
    · simp [create_caption_groups_go, h] at hg
    · rw [create_caption_groups_go, if_neg h] at hg
      simp at hg
      exact ⟨current, h, hg⟩
  | cons w ws ih =>
    intro current g hg
    rw [create_caption_groups_go] at hg
    by_cases hsplit : current = [] ∨ 4 ≤ current.length ∨ hasPunct w.text = true ∨
        (current ≠ [] ∧ (w.start - (current.headD dAIWord).start) / 1000 > 3)
    · rw [if_pos hsplit] at hg
      rcases List.mem_append.mp hg with hflush | hrest
      · by_cases h : current = []
        · simp [h] at hflush
        · rw [if_neg h] at hflush
          simp at hflush
          exact ⟨current, h, hflush⟩
      · exact ih [w] g hrest
    · rw [if_neg hsplit] at hg
      exact ih (current ++ [w]) g hg

/-- C5 counterexample: `create_word_groups` on a single word ending at 2 s
produces a group ending at 2.1 s — the 0.1 s buffer, not the last word's
end time. -/
theorem C5_counterexample :
    create_word_groups [⟨['h', 'i'], 1, 2⟩] 3 = [⟨['h', 'i'], 1, 21 / 10⟩] ∧
      (21 / 10 : ℚ) ≠ 2 := by
  constructor
  · simp [create_word_groups, create_word_groups_go, cwgSize, mkWGroup, joinSp, dWT]
    norm_num
  · norm_num

/-- C5 amended: groups of `create_caption_groups` keep their words and have
`start`/`end` equal to the first word's start and last word's end converted
from milliseconds to seconds; groups of `create_word_groups` and
`create_word_groups_from_whisper` carry no word list, start at their first
word's start, but end at their last word's end plus a 0.1 s buffer. -/
theorem C5_group_time_fields :
    (∀ words g, g ∈ create_caption_groups words →
        g.words ≠ [] ∧ g.start = (g.words.headD dAIWord).start / 1000 ∧
          g.stop = (g.words.getLastD dAIWord).stop / 1000) ∧
      (∀ wt n g, g ∈ create_word_groups wt n →
          ∃ c, c ≠ [] ∧ c.IsInfix wt ∧ g.text = joinSp (c.map (·.word)) ∧
            g.start = (c.headD dWT).start ∧
            g.stop = (c.getLastD dWT).stop + 1 / 10) ∧
      ∀ words n g, g ∈ create_word_groups_from_whisper words n →
        ∃ c, c ≠ [] ∧ c.IsInfix words ∧ g.text = joinSp (c.map (·.word)) ∧
          g.start = (c.headD dWT).start ∧
          g.stop = (c.getLastD dWT).stop + 1 / 10 := by
  refine ⟨?_, ?_, ?_⟩
  · intro words g hg
    rcases eq_or_ne words [] with h | h
    · simp [create_caption_groups, h] at hg
    · rw [create_caption_groups, if_neg h] at hg
      obtain ⟨c, hne, rfl⟩ := create_caption_groups_go_shape words [] g hg
      exact ⟨by simpa [mkCaption] using hne, by simp [mkCaption], by simp [mkCaption]⟩
  · intro wt n g hg
    rw [create_word_groups, create_word_groups_go_eq_chunk3] at hg
    obtain ⟨c, hc, rfl⟩ := List.mem_map.mp hg
    obtain ⟨hne, hinf⟩ := chunk3_mem wt c hc
    exact ⟨c, hne, hinf, rfl, rfl, rfl⟩
  · intro words n g hg
    rw [create_word_groups_from_whisper] at hg
    obtain ⟨c, hne, hinf, rfl⟩ := create_word_groups_from_whisper_go_mem words g hg
    exact ⟨c, hne, hinf, rfl, rfl, rfl⟩

/-! ## Segment time estimation (`create_word_captions.estimate_word_timings`) -/

structure Seg where
  start : ℚ
  stop : ℚ
  text : Str
  deriving DecidableEq, Repr

/-- Split at every character satisfying `p`, keeping empty pieces. -/
def splitOnP (p : Char → Bool) : Str → List Str
  | [] => [[]]
  | x :: xs =>
    if p x then [] :: splitOnP p xs
    else
      match splitOnP p xs with
      | [] => [[x]]
      | q :: qs => (x :: q) :: qs

/-- Python `str.split()` with no argument: split on whitespace runs,
discarding empty pieces. -/
def pySplitWs (l : Str) : List Str := (splitOnP isWs l).filter (· ≠ [])

/-- `estimate_word_timings` from `create_word_captions.py`: the imperative
accumulation over segments, with Python floats as rationals. -/
def estimate_word_timings (segments : List Seg) (start_offset : ℚ := 0) :
    List WT :=
  segments.foldl
    (fun acc segment =>
      let words := pySplitWs segment.text
      if words = [] then acc
      else
        let segment_duration := segment.stop - segment.start
        if segment_duration ≤ 0 then acc
        else
          let time_per_word := segment_duration / (words.length : ℚ)
          let segment_start_adjusted := segment.start - start_offset
          acc ++ words.enum.filterMap fun iw =>
            let word_start := segment_start_adjusted + (iw.1 : ℚ) * time_per_word
            let word_end := word_start + time_per_word
            if word_end > 0 then some ⟨iw.2, max 0 word_start, max 0 word_end⟩
            else none)
    []

/-- Modelled from the claim's words: skip zero-duration or zero-word
segments; give word `i` the window of width `(end-start)/n` tiled from
`start - timeOffset`; drop words with window end `≤ 0`; clamp surviving
starts to `≥ 0`. -/
def estimateWordTimingsSpec (segments : List Seg) (timeOffset : ℚ) : List WT :=
  (segments.map fun seg =>
    let ws := pySplitWs seg.text
    if seg.stop - seg.start ≤ 0 ∨ ws = [] then []
    else
      let width := (seg.stop - seg.start) / (ws.length : ℚ)
      ws.enum.filterMap fun iw =>
        let s := seg.start - timeOffset + (iw.1 : ℚ) * width
        let e := s + width
        if e ≤ 0 then none else some ⟨iw.2, max 0 s, e⟩).flatten

/-- Folding with append from the empty accumulator is concat-of-map. -/
theorem foldl_append_flatten {α β : Type} (g : α → List β) (l : List α) :
    ∀ acc : List β, l.foldl (fun a x => a ++ g x) acc = acc ++ (l.map g).flatten := by
  induction l with
  | nil => simp
  | cons x xs ih =>
    intro acc
    simp [ih (acc ++ g x)]

/-- Contribution of one segment to `estimate_word_timings`. -/
def ewtSeg (timeOffset : ℚ) (segment : Seg) : List WT :=
  let words := pySplitWs segment.text
  if words = [] then []
  else
    let segment_duration := segment.stop - segment.start
    if segment_duration ≤ 0 then []
    else
      let time_per_word := segment_duration / (words.length : ℚ)
      let segment_start_adjusted := segment.start - timeOffset
      words.enum.filterMap fun iw =>
        let word_start := segment_start_adjusted + (iw.1 : ℚ) * time_per_word
        let word_end := word_start + time_per_word
        if word_end > 0 then some ⟨iw.2, max 0 word_start, max 0 word_end⟩
        else none

/-- The estimator's fold is the concatenation of per-segment contributions. -/
theorem estimate_word_timings_eq_flatten (segments : List Seg) (timeOffset : ℚ) :
    estimate_word_timings segments timeOffset =
      (segments.map (ewtSeg timeOffset)).flatten := by
  rw [estimate_word_timings]
  have hbody : (fun (acc : List WT) (segment : Seg) =>
      let words := pySplitWs segment.text
      if words = [] then acc
      else
        let segment_duration := segment.stop - segment.start
        if segment_duration ≤ 0 then acc
        else
          let time_per_word := segment_duration / (words.length : ℚ)
          let segment_start_adjusted := segment.start - timeOffset
          acc ++ words.enum.filterMap fun iw =>
            let word_start := segment_start_adjusted + (iw.1 : ℚ) * time_per_word
            let word_end := word_start + time_per_word
            if word_end > 0 then some ⟨iw.2, max 0 word_start, max 0 word_end⟩
            else none) =
      fun acc segment => acc ++ ewtSeg timeOffset segment := by
    funext acc segment
    rw [ewtSeg]
    by_cases hw : pySplitWs segment.text = []
    · simp [hw]
    · by_cases hd : segment.stop - segment.start ≤ 0 <;> simp [hw, hd]
  rw [hbody, foldl_append_flatten, List.nil_append]

/-- C8: the word-timing estimator skips zero-duration and zero-word
segments, tiles each remaining segment's words with fixed windows of width
`(end-start)/n` starting at `start - timeOffset`, drops words whose window
end is `≤ 0`, and clamps surviving starts to `≥ 0`. -/
theorem C8_estimator_matches_description :
    ∀ (segments : List Seg) (timeOffset : ℚ),
      estimate_word_timings segments timeOffset =
        estimateWordTimingsSpec segments timeOffset := by
  intro segments timeOffset
  rw [estimate_word_timings_eq_flatten, estimateWordTimingsSpec]
  congr 1
  apply List.map_congr_left
  intro seg _
  simp only [ewtSeg]
  by_cases hw : pySplitWs seg.text = []
  · simp [hw]
  · by_cases hd : seg.stop - seg.start ≤ 0
    · simp [hw, hd]
    · rw [if_neg hw, if_neg hd, if_neg (by tauto)]
      apply List.filterMap_congr
      intro iw _
      set e := seg.start - timeOffset + (iw.1 : ℚ) *
          ((seg.stop - seg.start) / ((pySplitWs seg.text).length : ℚ)) +
          (seg.stop - seg.start) / ((pySplitWs seg.text).length : ℚ) with he
      by_cases hle : e ≤ 0
      · rw [if_neg (not_lt.mpr hle), if_pos hle]
      · rw [if_pos (lt_of_not_le hle), if_neg hle,
          max_eq_right (le_of_lt (lt_of_not_le hle))]

/-! ## Subtitle timeline rendering (`create_ai_captions.create_ass_subtitles`)

The renderer walks the caption groups and, per group, emits one layer-0
baseline event plus one layer-1 overlay event per word; each event's time
fields are rendered with the `H:MM:SS.cc` centisecond format.  Events are
modelled as records; the Dialogue line rendering is modelled separately. -/

structure Event where
  layer : ℕ
  start : ℚ
  stop : ℚ
  text : Str
  deriving DecidableEq, Repr

/-- `.replace(',', chr(92) + ',')` — the naive comma escaping. -/
def escapeCommas (t : Str) : Str := replaceCharBy ',' [bsChar, ','] t

/-- Inline override switching to the highlight colour (red, BGR `0000FF`). -/
def hlOpen : Str :=
  [lbChar, bsChar, 'c', '&', 'H', '0', '0', '0', '0', 'F', 'F', '&', rbChar]

/-- Inline override switching back to the default colour (white). -/
def hlClose : Str :=
  [lbChar, bsChar, 'c', '&', 'H', 'F', 'F', 'F', 'F', 'F', 'F', '&', rbChar]

/-- Text of the persistent all-white baseline line of a group. -/
def baselineText (words : List AIWord) : Str :=
  escapeCommas (joinSp (words.map fun w => upperStr w.text))

/-- Text of the layer-1 overlay highlighting word `i`: every word
upper-cased, word `i` wrapped in the colour overrides. -/
def sweepText (words : List AIWord) (i : ℕ) : Str :=
  escapeCommas (joinSp (words.enum.map fun jw =>
    if jw.1 = i then hlOpen ++ upperStr jw.2.text ++ hlClose
    else upperStr jw.2.text))

/-- The events `create_ass_subtitles` emits for one caption group: the
layer-0 baseline over the group interval, then one layer-1 event per word
over that word's (millisecond-to-second converted) interval. -/
def caption_events (caption : Caption) : List Event :=
  ⟨0, caption.start, caption.stop, baselineText caption.words⟩ ::
    caption.words.enum.map fun iw =>
      ⟨1, iw.2.start / 1000, iw.2.stop / 1000, sweepText caption.words iw.1⟩

/-- All events of the rendered timeline, in emission order. -/
def ass_events (captions : List Caption) : List Event :=
  (captions.map caption_events).flatten

/-- C9: in highlight mode every group yields exactly `1 + n` events — one
layer-0 baseline spanning the group and, for each word index `i`, one
layer-1 event spanning word `i`'s interval whose text upper-cases the whole
group and wraps word `i` alone in highlight-colour overrides. -/
theorem C9_sweep_mode_events :
    ∀ (caption : Caption) (i : ℕ) (w : AIWord), caption.words[i]? = some w →
      (caption_events caption).length = caption.words.length + 1 ∧
      (caption_events caption)[0]? =
        some ⟨0, caption.start, caption.stop,
          escapeCommas (joinSp (caption.words.map fun v => upperStr v.text))⟩ ∧
      (caption_events caption)[i + 1]? =
        some ⟨1, w.start / 1000, w.stop / 1000,
          escapeCommas (joinSp (caption.words.enum.map fun jw =>
            if jw.1 = i then hlOpen ++ upperStr jw.2.text ++ hlClose
            else upperStr jw.2.text))⟩ := by
  intro caption i w hw
  refine ⟨by simp [caption_events], by simp [caption_events, baselineText], ?_⟩
  simp only [caption_events, List.getElem?_cons_succ, List.getElem?_map,
    List.getElem?_enum, hw]
  rfl

/-- Witness for C9: the one-word group `{words:[{Hi,0,500}],start:0,end:0.5}`
yields exactly two events, the baseline and the single highlight overlay. -/
theorem C9_sweep_mode_events_witness :
    ((⟨[⟨['H', 'i'], 0, 500⟩], ['H', 'i'], 0, 1 / 2⟩ : Caption).words[0]? =
        some ⟨['H', 'i'], 0, 500⟩) ∧
      ((caption_events ⟨[⟨['H', 'i'], 0, 500⟩], ['H', 'i'], 0, 1 / 2⟩).length =
          ([⟨['H', 'i'], 0, 500⟩] : List AIWord).length + 1 ∧
        (caption_events ⟨[⟨['H', 'i'], 0, 500⟩], ['H', 'i'], 0, 1 / 2⟩)[0]? =
          some ⟨0, 0, 1 / 2,
            escapeCommas (joinSp (([⟨['H', 'i'], 0, 500⟩] : List AIWord).map
              fun v => upperStr v.text))⟩ ∧
        (caption_events ⟨[⟨['H', 'i'], 0, 500⟩], ['H', 'i'], 0, 1 / 2⟩)[0 + 1]? =
          some ⟨1, 0 / 1000, 500 / 1000,
            escapeCommas (joinSp (([⟨['H', 'i'], 0, 500⟩] :
                List AIWord).enum.map fun jw =>
              if jw.1 = 0 then hlOpen ++ upperStr jw.2.text ++ hlClose
              else upperStr jw.2.text))⟩) :=
  ⟨rfl, C9_sweep_mode_events ⟨[⟨['H', 'i'], 0, 500⟩], ['H', 'i'], 0, 1 / 2⟩ 0
    ⟨['H', 'i'], 0, 500⟩ rfl⟩

/-! ## Timestamp rendering and the backslash-cleanup pass -/

/-- The `H:MM:SS.cc` cue timestamp f-string of `create_ass_subtitles`:
hours unpadded, minutes/seconds/centiseconds zero-padded to two digits,
centiseconds truncated (via `int`), not rounded. -/
def sec_to_cue_timestamp (q : ℚ) : Str :=
  intToChars (pyTrunc (pyFloorDiv q 3600)) ++
    ':' :: pad2 (pyTrunc (pyFloorDiv (pyMod q 3600) 60)) ++
    ':' :: pad2 (pyTrunc (pyMod q 60)) ++
    '.' :: pad2 (pyTrunc (pyMod q 1 * 100))

/-- One `Dialogue:` event line (without the trailing newline). -/
def mkDialogueLine (e : Event) : Str :=
  "Dialogue: ".data ++ natToChars e.layer ++
    ',' :: sec_to_cue_timestamp e.start ++
    ',' :: sec_to_cue_timestamp e.stop ++
    ",Default,,0,0,0,,".data ++ e.text

/-- Header of the generated subtitle document (`create_ass_subtitles`). -/
def assHeaderText (w h : ℕ) : Str :=
  "[Script Info]\nTitle: AI In-Place Word Captions\nScriptType: v4.00+\nPlayResX: ".data
    ++ natToChars w ++ "\nPlayResY: ".data ++ natToChars h ++
    "\nWrapStyle: 1\n\n[V4+ Styles]\nFormat: Name, Fontname, Fontsize, PrimaryColour, SecondaryColour, OutlineColour, BackColour, Bold, Italic, Underline, StrikeOut, ScaleX, ScaleY, Spacing, Angle, BorderStyle, Outline, Shadow, Alignment, MarginL, MarginR, MarginV, Encoding\nStyle: Default,Impact,".data
    ++ natToChars (h / 12) ++
    ",&H00FFFFFF,&H000000FF,&H00000000,&H80000000,1,0,0,0,100,100,0,0,1,3,2,2,30,30,80,1\n\n[Events]\nFormat: Layer, Start, End, Style, Name, MarginL, MarginR, MarginV, Effect, Text\n".data

/-- The document text `create_ass_subtitles` builds before the cleanup. -/
def create_ass_subtitles_content (captions : List Caption) (w h : ℕ) : Str :=
  assHeaderText w h ++
    ((ass_events captions).map fun e => mkDialogueLine e ++ [nlChar]).flatten

/-- One line of `remove_unnecessary_backslashes.clean_line`: copy
brace-delimited override blocks verbatim, remove every backslash outside
them (the regex `(\x7b.*?\x7d)` matches from a `\x7b` to the first `\x7d`
after it; an unmatched opening brace leaves the rest a non-block span). -/
def cleanLineAux : ℕ → Str → Str
  | 0, l => l
  | _ + 1, [] => []
  | fuel + 1, x :: xs =>
    if x = lbChar then
      if rbChar ∈ xs then
        (x :: xs.takeWhile (· ≠ rbChar) ++ [rbChar]) ++
          cleanLineAux fuel ((xs.dropWhile (· ≠ rbChar)).drop 1)
      else (x :: xs).filter (· ≠ bsChar)
    else if x = bsChar then cleanLineAux fuel xs
    else x :: cleanLineAux fuel xs

def cleanLine (l : Str) : Str := cleanLineAux l.length l

/-- Python `str.splitlines()` for newline-only content: like splitting on
the newline character, but without a final empty piece. -/
def pySplitlines (l : Str) : List Str :=
  let p := splitOnChar nlChar l
  if p.getLast? = some [] then p.dropLast else p

/-- Python `'\n'.join`. -/
def joinNl : List Str → Str
  | [] => []
  | [x] => x
  | x :: y :: ys => x ++ nlChar :: joinNl (y :: ys)

/-- `remove_unnecessary_backslashes` from `create_ai_captions.py`. -/
def remove_unnecessary_backslashes (text : Str) : Str :=
  joinNl ((pySplitlines text).map cleanLine)

/-- The document `create_ass_subtitles` finally writes: generated content
followed by the backslash cleanup. -/
def final_ass_content (captions : List Caption) (w h : ℕ) : Str :=
  remove_unnecessary_backslashes (create_ass_subtitles_content captions w h)

/-- `cleanLineAux` ignores the exact fuel once it covers the line length. -/
theorem cleanLineAux_fuel :
    ∀ fuel fuel' l, l.length ≤ fuel → l.length ≤ fuel' →
      cleanLineAux fuel l = cleanLineAux fuel' l := by
  intro fuel
  induction fuel with
  | zero =>
    intro fuel' l h _
    have hl : l = [] := List.length_eq_zero.mp (Nat.le_zero.mp h)
    subst hl
    cases fuel' <;> simp [cleanLineAux]
  | succ fuel ih =>
    intro fuel' l h h'
    cases l with
    | nil => cases fuel' <;> simp [cleanLineAux]
    | cons x xs =>
      cases fuel' with
      | zero => simp at h'
      | succ fuel2 =>
        simp only [cleanLineAux]
        have hd : (xs.dropWhile (fun c => c ≠ rbChar)).length ≤ xs.length :=
          (List.dropWhile_suffix _).length_le
        simp only [List.length_cons] at h h'
        by_cases hx : x = lbChar
        · rw [if_pos hx, if_pos hx]
          by_cases hr : rbChar ∈ xs
          · rw [if_pos hr, if_pos hr]
            congr 1
            refine ih fuel2 _ ?_ ?_ <;>
              simp only [List.length_drop] <;> omega
          · rw [if_neg hr, if_neg hr]
        · rw [if_neg hx, if_neg hx]
          by_cases hb : x = bsChar
          · rw [if_pos hb, if_pos hb]
            exact ih fuel2 xs (by omega) (by omega)
          · rw [if_neg hb, if_neg hb]
            congr 1
            exact ih fuel2 xs (by omega) (by omega)

/-- On a line with no opening brace, the cleanup is exactly backslash
removal. -/
theorem cleanLine_no_brace : ∀ l : Str, lbChar ∉ l →
    cleanLine l = l.filter (· ≠ bsChar) := by
  have aux : ∀ fuel l, l.length ≤ fuel → lbChar ∉ l →
      cleanLineAux fuel l = l.filter (fun c => c ≠ bsChar) := by
    intro fuel
    induction fuel with
    | zero =>
      intro l h _
      have hl : l = [] := List.length_eq_zero.mp (Nat.le_zero.mp h)
      subst hl
      simp [cleanLineAux]
    | succ fuel ih =>
      intro l h hmem
      cases l with
      | nil => simp [cleanLineAux]
      | cons x xs =>
        have hx : x ≠ lbChar := fun hc => hmem (hc ▸ List.mem_cons_self x xs)
        have hxs : lbChar ∉ xs := fun hc => hmem (List.mem_cons_of_mem x hc)
        simp only [cleanLineAux, if_neg hx, List.length_cons] at *
        by_cases hb : x = bsChar
        · rw [if_pos hb, ih xs (by omega) hxs, List.filter_cons]
          simp [hb]
        · rw [if_neg hb, ih xs (by omega) hxs, List.filter_cons]
          simp [hb]
  intro l hmem
  exact aux l.length l le_rfl hmem

/-- `takeWhile (≠ rb)` stops exactly at the first closing brace. -/
theorem takeWhile_ne_rb : ∀ inner rest : Str, rbChar ∉ inner →
    (inner ++ rbChar :: rest).takeWhile (fun c => c ≠ rbChar) = inner := by
  intro inner rest h
  induction inner with
  | nil => simp [List.takeWhile]
  | cons x xs ih =>
    have hx : x ≠ rbChar := fun hc => h (hc ▸ List.mem_cons_self x xs)
    simp only [List.cons_append, List.takeWhile_cons]
    rw [if_pos (by simpa using hx)]
    rw [ih fun hc => h (List.mem_cons_of_mem x hc)]

/-- `dropWhile (≠ rb)` lands exactly on the first closing brace. -/
theorem dropWhile_ne_rb : ∀ inner rest : Str, rbChar ∉ inner →
    (inner ++ rbChar :: rest).dropWhile (fun c => c ≠ rbChar) = rbChar :: rest := by
  intro inner rest h
  induction inner with
  | nil => simp [List.dropWhile]
  | cons x xs ih =>
    have hx : x ≠ rbChar := fun hc => h (hc ▸ List.mem_cons_self x xs)
    simp only [List.cons_append, List.dropWhile_cons]
    rw [if_pos (by simpa using hx)]
    exact ih fun hc => h (List.mem_cons_of_mem x hc)

/-- The cleanup copies a brace-delimited override block verbatim and goes
on after it. -/
theorem cleanLine_block (inner rest : Str) (h : rbChar ∉ inner) :
    cleanLine (lbChar :: inner ++ rbChar :: rest) =
      lbChar :: inner ++ rbChar :: cleanLine rest := by
  have hmem : rbChar ∈ inner ++ rbChar :: rest := by simp
  have htake := takeWhile_ne_rb inner rest h
  have hdrop := dropWhile_ne_rb inner rest h
  have hfuel := cleanLineAux_fuel (inner.length + rest.length + 1) rest.length
    rest (by omega) le_rfl
  rw [cleanLine, cleanLine]
  have hlen : (lbChar :: inner ++ rbChar :: rest).length =
      inner.length + rest.length + 1 + 1 := by simp; omega
  rw [hlen]
  simp only [cleanLineAux]
  simp only [ne_eq, decide_not] at htake hdrop
  simp [hmem, htake, hdrop, hfuel]

/-- Unfolding of comma escaping on a cons. -/
theorem escapeCommas_cons (x : Char) (xs : Str) :
    escapeCommas (x :: xs) =
      (if x = ',' then [bsChar, ','] else [x]) ++ escapeCommas xs := rfl

/-- Removing backslashes undoes comma escaping on backslash-free text. -/
theorem filter_escapeCommas : ∀ t : Str, bsChar ∉ t →
    (escapeCommas t).filter (fun c => c ≠ bsChar) = t := by
  intro t
  induction t with
  | nil => intro _; simp [escapeCommas, replaceCharBy]
  | cons x xs ih =>
    intro h
    have hx : x ≠ bsChar := fun hc => h (hc ▸ List.mem_cons_self x xs)
    have hxs : bsChar ∉ xs := fun hc => h (List.mem_cons_of_mem x hc)
    rw [escapeCommas_cons, List.filter_append, ih hxs]
    by_cases hcomma : x = ','
    · subst hcomma
      have : [bsChar, ','].filter (fun c => decide (c ≠ bsChar)) = [','] := by decide
      simp_all
    · simp [hx, hcomma]

/-- Characters introduced by comma escaping are backslashes or original. -/
theorem mem_escapeCommas : ∀ t c, c ∈ escapeCommas t → c = bsChar ∨ c ∈ t := by
  intro t
  induction t with
  | nil => intro c hc; simp [escapeCommas, replaceCharBy] at hc
  | cons x xs ih =>
    intro c hc
    rw [escapeCommas_cons] at hc
    rcases List.mem_append.mp hc with hc | hc
    · by_cases hcomma : x = ','
      · rw [if_pos hcomma] at hc
        simp at hc
        rcases hc with hc | hc
        · exact Or.inl hc
        · exact Or.inr (by simp [hcomma, hc])
      · rw [if_neg hcomma] at hc
        simp at hc
        exact Or.inr (by simp [hc])
    · rcases ih c hc with h | h
      · exact Or.inl h
      · exact Or.inr (List.mem_cons_of_mem x h)

/-- C3 amended: the cleanup pass removes the single-backslash comma escapes
from event text — on brace-free, backslash-free text, cleaning the escaped
text returns the unescaped original (so final commas carry no backslash);
outside override blocks every backslash is removed, while brace-delimited
override blocks pass through the cleanup verbatim. -/
theorem C3_final_doc_commas_unescaped :
    (∀ t : Str, bsChar ∉ t → lbChar ∉ t → cleanLine (escapeCommas t) = t) ∧
      (∀ line : Str, lbChar ∉ line →
        cleanLine line = line.filter (fun c => c ≠ bsChar)) ∧
      ∀ inner rest : Str, rbChar ∉ inner →
        cleanLine (lbChar :: inner ++ rbChar :: rest) =
          lbChar :: inner ++ rbChar :: cleanLine rest := by
  refine ⟨?_, cleanLine_no_brace, cleanLine_block⟩
  intro t hbs hlb
  have hlb' : lbChar ∉ escapeCommas t := by
    intro hc
    rcases mem_escapeCommas t lbChar hc with h | h
    · exact absurd h (by decide)
    · exact hlb h
  rw [cleanLine_no_brace _ hlb', filter_escapeCommas t hbs]

/-- The one-group, comma-carrying caption used to exercise the renderer. -/
def c3Cap : Caption :=
  ⟨[⟨['H', 'i', ','], 0, 500⟩], ['H', 'i', ','], 0, 1 / 2⟩

set_option maxRecDepth 4000 in
/-- C3 counterexample: the document the renderer finally writes for the
caption `Hi,` contains the event text `HI,` with no backslash before the
comma — indeed no backslash-comma sequence survives the cleanup at all. -/
theorem C3_counterexample :
    containsSub ['H', 'I', ','] (final_ass_content [c3Cap] 720 1280) = true ∧
      containsSub [bsChar, ','] (final_ass_content [c3Cap] 720 1280) = false := by
  have e0 : (0 : ℚ) / 1000 = 0 := by norm_num
  have e5 : (500 : ℚ) / 1000 = 1 / 2 := by norm_num
  have h0 : sec_to_cue_timestamp 0 = "0:00:00.00".data := by
    norm_num [sec_to_cue_timestamp, pyFloorDiv, pyMod, pyTrunc]
    decide
  have hh : sec_to_cue_timestamp (1 / 2) = "0:00:00.50".data := by
    norm_num [sec_to_cue_timestamp, pyFloorDiv, pyMod, pyTrunc]
    decide
  rw [final_ass_content, create_ass_subtitles_content]
  simp only [ass_events, caption_events, c3Cap, List.map_cons, List.map_nil,
    List.flatten_cons, List.flatten_nil, List.enum, List.enumFrom,
    List.append_nil, List.nil_append, mkDialogueLine, e0, e5, h0, hh]
  constructor <;> decide

/-! ## Timestamp codec (`parse_vtt_time_to_seconds` and the round-trip) -/

/-- `parse_vtt_time_to_seconds` from `create_word_captions.py` (the same
code appears in `create_smart_captions.py`): normalise commas to dots,
split on `:`, and read `H:M:S.frac` or `M:S.frac`; any other field count or
a non-numeric field raises (`none`). -/
def parse_vtt_time_to_seconds? (time_str : Str) : Option ℚ :=
  let t := replaceCharBy ',' ['.'] time_str
  match splitOnChar ':' t with
  | [h, m, s] =>
    match pyInt? h, pyInt? m, pyFloat? s with
    | some hv, some mv, some sv => some ((hv : ℚ) * 3600 + (mv : ℚ) * 60 + sv)
    | _, _, _ => none
  | [m, s] =>
    match pyInt? m, pyFloat? s with
    | some mv, some sv => some ((mv : ℚ) * 60 + sv)
    | _, _ => none
  | _ => none

/-- Digit characters have the expected code points. -/
theorem digitChar_toNat {n : ℕ} (h : n < 10) : (digitChar n).toNat = 48 + n := by
  interval_cases n <;> decide

/-- `digitChar` yields digit characters. -/
theorem digitChar_isDigit {n : ℕ} (h : n < 10) :
    isDigitChar (digitChar n) = true := by
  interval_cases n <;> decide

/-- Every character the decimal renderer emits is a digit. -/
theorem natToCharsAux_digits :
    ∀ fuel n, ∀ c ∈ natToCharsAux fuel n, isDigitChar c = true := by
  intro fuel
  induction fuel with
  | zero => intro n c hc; simp [natToCharsAux] at hc
  | succ fuel ih =>
    intro n c hc
    rw [natToCharsAux] at hc
    by_cases h : n < 10
    · rw [if_pos h] at hc
      simp at hc
      subst hc
      exact digitChar_isDigit h
    · rw [if_neg h] at hc
      rcases List.mem_append.mp hc with hc | hc
      · exact ih _ c hc
      · simp at hc
        subst hc
        exact digitChar_isDigit (Nat.mod_lt _ (by omega))

theorem natToChars_digits (n : ℕ) : ∀ c ∈ natToChars n, isDigitChar c = true :=
  natToCharsAux_digits (n + 1) n

/-- The decimal renderer never returns the empty string. -/
theorem natToCharsAux_ne_nil : ∀ fuel n, natToCharsAux (fuel + 1) n ≠ [] := by
  intro fuel n
  rw [natToCharsAux]
  by_cases h : n < 10 <;> simp [h]

/-- Reading a digit string after appending one digit. -/
theorem digitsToNat_append (a : Str) (c : Char) :
    digitsToNat (a ++ [c]) = 10 * digitsToNat a + (c.toNat - 48) := by
  simp [digitsToNat, List.foldl_append]

/-- The decimal renderer and reader are mutually inverse. -/
theorem natToCharsAux_val :
    ∀ fuel n, n < 10 ^ fuel → digitsToNat (natToCharsAux fuel n) = n := by
  intro fuel
  induction fuel with
  | zero =>
    intro n h
    have hn : n = 0 := by omega
    subst hn
    simp [natToCharsAux, digitsToNat]
  | succ fuel ih =>
    intro n h
    rw [natToCharsAux]
    by_cases hn : n < 10
    · rw [if_pos hn]
      simp [digitsToNat, digitChar_toNat hn]
    · have h' : n < 10 * 10 ^ fuel := by
        rw [pow_succ, mul_comm] at h
        exact h
      rw [if_neg hn, digitsToNat_append, ih (n / 10) (Nat.div_lt_of_lt_mul h'),
        digitChar_toNat (Nat.mod_lt _ (by omega))]
      omega

theorem natToChars_val (n : ℕ) : digitsToNat (natToChars n) = n := by
  refine natToCharsAux_val (n + 1) n ?_
  calc n < 10 ^ n := Nat.lt_pow_self (by omega) n
    _ ≤ 10 ^ (n + 1) := Nat.pow_le_pow_right (by omega) (by omega)

/-- A digit character differs from any character outside the digit range. -/
theorem digit_ne (c : Char) (h : isDigitChar c = true) (d : Char)
    (hd : d.toNat < 48 ∨ 57 < d.toNat) : c ≠ d := by
  intro hc
  subst hc
  simp only [isDigitChar, decide_eq_true_eq] at h
  obtain ⟨h1, h2⟩ := h
  have hl : 48 ≤ c.toNat := h1
  have hr : c.toNat ≤ 57 := h2
  omega

/-- Digit characters are not whitespace. -/
theorem digit_not_ws (c : Char) (h : isDigitChar c = true) : isWs c = false := by
  have h1 := digit_ne c h ' ' (by decide)
  have h2 := digit_ne c h '\t' (by decide)
  have h3 := digit_ne c h nlChar (by decide)
  have h4 := digit_ne c h '\r' (by decide)
  simp [isWs, h1, h2, h3, h4]

/-- Leading-whitespace removal is the identity on whitespace-free text. -/
theorem dropLeadWs_eq_self (l : Str) (h : ∀ c ∈ l, isWs c = false) :
    dropLeadWs l = l := by
  cases l with
  | nil => rfl
  | cons x xs =>
    rw [dropLeadWs, if_neg]
    simp [h x (List.mem_cons_self x xs)]

/-- Trailing-whitespace removal is the identity on whitespace-free text. -/
theorem dropTrailWs_eq_self (l : Str) (h : ∀ c ∈ l, isWs c = false) :
    dropTrailWs l = l := by
  induction l with
  | nil => rfl
  | cons x xs ih =>
    rw [dropTrailWs]
    simp only [ih fun c hc => h c (List.mem_cons_of_mem x hc)]
    rw [if_neg]
    simp [h x (List.mem_cons_self x xs)]

theorem pyStrip_eq_self (l : Str) (h : ∀ c ∈ l, isWs c = false) :
    pyStrip l = l := by
  rw [pyStrip, dropLeadWs_eq_self l h, dropTrailWs_eq_self l h]

/-- A digit-headed string carries no sign. -/
theorem splitSign_digits (l : Str) (hne : l ≠ [])
    (h : ∀ c ∈ l, isDigitChar c = true) : splitSign l = (false, l) := by
  cases l with
  | nil => exact absurd rfl hne
  | cons x xs =>
    have hx := h x (List.mem_cons_self x xs)
    rw [splitSign, if_neg, if_neg]
    · simp
      exact digit_ne x hx '+' (by decide)
    · simp
      exact digit_ne x hx '-' (by decide)

/-- Python `int` reads back any non-empty digit string. -/
theorem pyInt?_digits (l : Str) (hne : l ≠ [])
    (h : ∀ c ∈ l, isDigitChar c = true) :
    pyInt? l = some (digitsToNat l : ℤ) := by
  rw [pyInt?, pyStrip_eq_self l fun c hc => digit_not_ws c (h c hc),
    splitSign_digits l hne h]
  simp only
  rw [if_pos ⟨hne, List.all_eq_true.mpr h⟩]
  simp

theorem natToChars_ne_nil (n : ℕ) : natToChars n ≠ [] :=
  natToCharsAux_ne_nil n n

/-- Python `int` reads back the decimal rendering of a natural number. -/
theorem pyInt?_natToChars (n : ℕ) : pyInt? (natToChars n) = some (n : ℤ) := by
  rw [pyInt?_digits (natToChars n) (natToChars_ne_nil n) (natToChars_digits n),
    natToChars_val]

/-- Splitting when the separator does not occur. -/
theorem splitOnChar_not_mem (c : Char) : ∀ l : Str, c ∉ l →
    splitOnChar c l = [l] := by
  intro l
  induction l with
  | nil => intro _; rfl
  | cons x xs ih =>
    intro h
    have hx : x ≠ c := fun hc => h (hc ▸ List.mem_cons_self x xs)
    rw [splitOnChar, if_neg hx, ih fun hc => h (List.mem_cons_of_mem x hc)]

/-- Splitting never yields the empty list of pieces. -/
theorem splitOnChar_ne_nil (c : Char) : ∀ l : Str, splitOnChar c l ≠ [] := by
  intro l
  cases l with
  | nil => simp [splitOnChar]
  | cons x xs =>
    rw [splitOnChar]
    by_cases hx : x = c
    · simp [hx]
    · rw [if_neg hx]
      cases splitOnChar c xs <;> simp

/-- Splitting at the first separator occurrence. -/
theorem splitOnChar_append (c : Char) : ∀ a b : Str, c ∉ a →
    splitOnChar c (a ++ c :: b) = a :: splitOnChar c b := by
  intro a
  induction a with
  | nil => intro b _; simp [splitOnChar]
  | cons x xs ih =>
    intro b h
    have hx : x ≠ c := fun hc => h (hc ▸ List.mem_cons_self x xs)
    rw [List.cons_append, splitOnChar, if_neg hx,
      ih b fun hc => h (List.mem_cons_of_mem x hc)]

/-- Replacement is the identity when the replaced character is absent. -/
theorem replaceCharBy_eq_self (a : Char) (b : Str) : ∀ l : Str, a ∉ l →
    replaceCharBy a b l = l := by
  intro l
  induction l with
  | nil => intro _; rfl
  | cons x xs ih =>
    intro h
    have hx : x ≠ a := fun hc => h (hc ▸ List.mem_cons_self x xs)
    rw [replaceCharBy, if_neg hx, ih fun hc => h (List.mem_cons_of_mem x hc)]
    rfl

/-- Leading zeros do not change the value of a digit string. -/
theorem digitsToNat_zeros_append (k : ℕ) (s : Str) :
    digitsToNat (List.replicate k '0' ++ s) = digitsToNat s := by
  induction k with
  | zero => rfl
  | succ k ih =>
    rw [List.replicate_succ, List.cons_append]
    simpa [digitsToNat] using ih

/-- All characters of a zero-padded non-negative integer are digits. -/
theorem pad2_digits (n : ℤ) (h : 0 ≤ n) : ∀ c ∈ pad2 n, isDigitChar c = true := by
  intro c hc
  rw [pad2] at hc
  have hint : intToChars n = natToChars n.toNat := by
    rw [intToChars, if_neg (not_lt.mpr h)]
  simp only [hint] at hc
  by_cases hlen : (natToChars n.toNat).length < 2
  · rw [if_pos hlen] at hc
    rcases List.mem_append.mp hc with hc | hc
    · rw [List.eq_of_mem_replicate hc]
      decide
    · exact natToChars_digits _ c hc
  · rw [if_neg hlen] at hc
    exact natToChars_digits _ c hc

/-- The value read back from a zero-padded non-negative integer. -/
theorem digitsToNat_pad2 (n : ℤ) (h : 0 ≤ n) :
    digitsToNat (pad2 n) = n.toNat := by
  rw [pad2]
  have hint : intToChars n = natToChars n.toNat := by
    rw [intToChars, if_neg (not_lt.mpr h)]
  simp only [hint]
  by_cases hlen : (natToChars n.toNat).length < 2
  · rw [if_pos hlen, digitsToNat_zeros_append, natToChars_val]
  · rw [if_neg hlen, natToChars_val]

/-- Two-digit rendering of numbers below 100. -/
theorem natToChars_length_le_two (m : ℕ) (h : m < 100) :
    (natToChars m).length ≤ 2 := by
  rw [natToChars, natToCharsAux]
  by_cases hm : m < 10
  · simp [hm]
  · rw [if_neg hm]
    obtain ⟨k, rfl⟩ : ∃ k, m = k + 1 := ⟨m - 1, by omega⟩
    rw [natToCharsAux, if_pos (by omega : (k + 1) / 10 < 10)]
    simp

/-- Zero-padding a value below 100 yields exactly two characters. -/
theorem pad2_length (n : ℤ) (h0 : 0 ≤ n) (h99 : n < 100) :
    (pad2 n).length = 2 := by
  rw [pad2]
  have hint : intToChars n = natToChars n.toNat := by
    rw [intToChars, if_neg (not_lt.mpr h0)]
  simp only [hint]
  have hle : (natToChars n.toNat).length ≤ 2 :=
    natToChars_length_le_two n.toNat (by omega)
  have hne : (natToChars n.toNat).length ≠ 0 := by
    simpa using natToChars_ne_nil n.toNat
  by_cases hlen : (natToChars n.toNat).length < 2
  · rw [if_pos hlen]
    simp
    omega
  · rw [if_neg hlen]
    omega

/-- Zero-padding never yields the empty string. -/
theorem pad2_ne_nil (n : ℤ) : pad2 n ≠ [] := by
  rw [pad2]
  have hs : intToChars n ≠ [] := by
    rw [intToChars]
    by_cases hn : n < 0
    · simp [hn]
    · simpa [hn] using natToChars_ne_nil n.toNat
  by_cases hlen : (intToChars n).length < 2
  · simp [hlen, hs]
  · simpa [hlen] using hs

/-- A string headed by a digit carries no sign. -/
theorem splitSign_head_digit (l : Str) (x : Char) (hx : isDigitChar x = true)
    (hhead : l.head? = some x) : splitSign l = (false, l) := by
  rw [splitSign, hhead, if_neg, if_neg]
  · simp
    exact digit_ne x hx '+' (by decide)
  · simp
    exact digit_ne x hx '-' (by decide)

/-- Python `float` reads back `SS.cc` built from two zero-padded fields. -/
theorem pyFloat?_pad_pair (s c : ℤ) (hs : 0 ≤ s) (hc : 0 ≤ c) (hc99 : c < 100) :
    pyFloat? (pad2 s ++ '.' :: pad2 c) =
      some ((s.toNat : ℚ) + (c.toNat : ℚ) / 100) := by
  have hws : ∀ x ∈ pad2 s ++ '.' :: pad2 c, isWs x = false := by
    intro x hx
    rcases List.mem_append.mp hx with hx | hx
    · exact digit_not_ws x (pad2_digits s hs x hx)
    · rcases List.mem_cons.mp hx with hx | hx
      · subst hx
        decide
      · exact digit_not_ws x (pad2_digits c hc x hx)
  obtain ⟨x, xs, hcons⟩ : ∃ x xs, pad2 s = x :: xs := by
    rcases hps : pad2 s with _ | ⟨x, xs⟩
    · exact absurd hps (pad2_ne_nil s)
    · exact ⟨x, xs, rfl⟩
  have hxdigit : isDigitChar x = true :=
    pad2_digits s hs x (by rw [hcons]; exact List.mem_cons_self x xs)
  rw [pyFloat?, pyStrip_eq_self _ hws,
    splitSign_head_digit _ x hxdigit (by rw [hcons]; rfl)]
  have hdot_s : '.' ∉ pad2 s := fun hmem =>
    absurd rfl (digit_ne '.' (pad2_digits s hs '.' hmem) '.' (by decide))
  have hdot_c : '.' ∉ pad2 c := fun hmem =>
    absurd rfl (digit_ne '.' (pad2_digits c hc '.' hmem) '.' (by decide))
  simp only [decLit?]
  rw [splitOnChar_append '.' (pad2 s) (pad2 c) hdot_s,
    splitOnChar_not_mem '.' (pad2 c) hdot_c]
  simp only
  rw [if_pos ⟨Or.inl (pad2_ne_nil s), List.all_eq_true.mpr (pad2_digits s hs),
    List.all_eq_true.mpr (pad2_digits c hc)⟩]
  rw [digitsToNat_pad2 s hs, digitsToNat_pad2 c hc, pad2_length c hc hc99]
  norm_num

/-- Truncation is the identity on (casts of) integers. -/
theorem pyTrunc_intCast (k : ℤ) : pyTrunc (k : ℚ) = k := by
  rw [pyTrunc]
  by_cases hk : (k : ℚ) < 0
  · rw [if_pos hk, ← Int.cast_neg, Int.floor_intCast]
    omega
  · rw [if_neg hk, Int.floor_intCast]

/-- Truncation of a non-negative value is its floor. -/
theorem pyTrunc_nonneg (q : ℚ) (h : 0 ≤ q) : pyTrunc q = ⌊q⌋ :=
  if_neg (not_lt.mpr h)

/-- The hour field of the cue timestamp. -/
theorem cue_hour (x : ℚ) : pyTrunc (pyFloorDiv x 3600) = ⌊x / 3600⌋ := by
  rw [pyFloorDiv, pyTrunc_intCast]

/-- The minute field of the cue timestamp. -/
theorem cue_minute (x : ℚ) :
    pyTrunc (pyFloorDiv (pyMod x 3600) 60) = ⌊x / 60⌋ - 60 * ⌊x / 3600⌋ := by
  rw [pyMod, pyFloorDiv]
  have h : (x - 3600 * ⌊x / 3600⌋) / 60 = x / 60 - ((60 * ⌊x / 3600⌋ : ℤ) : ℚ) := by
    push_cast
    ring
  rw [h, Int.floor_sub_int, pyTrunc_intCast]

/-- The second field of the cue timestamp. -/
theorem cue_second (x : ℚ) : pyTrunc (pyMod x 60) = ⌊x⌋ - 60 * ⌊x / 60⌋ := by
  rw [pyMod]
  have hnn : 0 ≤ x - 60 * ⌊x / 60⌋ := by
    have h1 : (⌊x / 60⌋ : ℚ) ≤ x / 60 := Int.floor_le _
    linarith
  rw [pyTrunc_nonneg _ hnn]
  have h : x - 60 * ⌊x / 60⌋ = x - ((60 * ⌊x / 60⌋ : ℤ) : ℚ) := by
    push_cast
    ring
  rw [h, Int.floor_sub_int]

/-- The centisecond field of the cue timestamp. -/
theorem cue_centi (x : ℚ) : pyTrunc (pyMod x 1 * 100) = ⌊100 * (x - ⌊x⌋)⌋ := by
  rw [pyMod]
  have h1 : x / 1 = x := div_one x
  rw [h1]
  have hnn : 0 ≤ (x - 1 * ⌊x⌋) * 100 := by
    have := Int.floor_le x
    nlinarith
  rw [pyTrunc_nonneg _ hnn]
  congr 1
  ring

/-- C6: formatting a non-negative time as `H:MM:SS.cc` (centiseconds
truncated) and parsing the string back recovers the time to within one
centisecond. -/
theorem C6_timestamp_roundtrip (x : ℚ) (hx : 0 ≤ x) :
    ∃ y, parse_vtt_time_to_seconds? (sec_to_cue_timestamp x) = some y ∧
      0 ≤ x - y ∧ x - y < 1 / 100 := by
  set H : ℤ := ⌊x / 3600⌋ with hH
  set M : ℤ := ⌊x / 60⌋ - 60 * ⌊x / 3600⌋ with hM
  set S : ℤ := ⌊x⌋ - 60 * ⌊x / 60⌋ with hS
  set C : ℤ := ⌊100 * (x - ⌊x⌋)⌋ with hC
  have hH0 : 0 ≤ H := Int.floor_nonneg.mpr (div_nonneg hx (by norm_num))
  have hM0 : 0 ≤ M := by
    have h1 : (⌊x / 3600⌋ : ℚ) ≤ x / 3600 := Int.floor_le _
    have h2 : ((60 * ⌊x / 3600⌋ : ℤ) : ℚ) ≤ x / 60 := by
      push_cast
      linarith
    have h3 := Int.le_floor.mpr h2
    omega
  have hS0 : 0 ≤ S := by
    have h1 : (⌊x / 60⌋ : ℚ) ≤ x / 60 := Int.floor_le _
    have h2 : ((60 * ⌊x / 60⌋ : ℤ) : ℚ) ≤ x := by
      push_cast
      linarith
    have h3 := Int.le_floor.mpr h2
    omega
  have hC0 : 0 ≤ C := by
    apply Int.floor_nonneg.mpr
    have := Int.floor_le x
    nlinarith
  have hC99 : C < 100 := by
    apply Int.floor_lt.mpr
    have := Int.lt_floor_add_one x
    push_cast
    nlinarith
  have hform : sec_to_cue_timestamp x =
      natToChars H.toNat ++
        ':' :: (pad2 M ++ ':' :: (pad2 S ++ '.' :: pad2 C)) := by
    have hC' : C = ⌊100 * Int.fract x⌋ := by
      rw [hC, Int.fract]
    rw [sec_to_cue_timestamp, cue_hour, cue_minute, cue_second, cue_centi,
      intToChars, if_neg (not_lt.mpr hH0)]
    simp [← hH, ← hM, ← hS, ← hC', List.cons_append, List.append_assoc]
  have hAd := natToChars_digits H.toNat
  have hBd := pad2_digits M hM0
  have hSd := pad2_digits S hS0
  have hCd := pad2_digits C hC0
  have hnc : ',' ∉ sec_to_cue_timestamp x := by
    rw [hform]
    intro hmem
    rcases List.mem_append.mp hmem with hmem | hmem
    · exact absurd rfl (digit_ne ',' (hAd ',' hmem) ',' (by decide))
    · rcases List.mem_cons.mp hmem with hmem | hmem
      · exact absurd hmem (by decide)
      · rcases List.mem_append.mp hmem with hmem | hmem
        · exact absurd rfl (digit_ne ',' (hBd ',' hmem) ',' (by decide))
        · rcases List.mem_cons.mp hmem with hmem | hmem
          · exact absurd hmem (by decide)
          · rcases List.mem_append.mp hmem with hmem | hmem
            · exact absurd rfl (digit_ne ',' (hSd ',' hmem) ',' (by decide))
            · rcases List.mem_cons.mp hmem with hmem | hmem
              · exact absurd hmem (by decide)
              · exact absurd rfl (digit_ne ',' (hCd ',' hmem) ',' (by decide))
  have hcolA : ':' ∉ natToChars H.toNat := fun hmem =>
    absurd rfl (digit_ne ':' (hAd ':' hmem) ':' (by decide))
  have hcolB : ':' ∉ pad2 M := fun hmem =>
    absurd rfl (digit_ne ':' (hBd ':' hmem) ':' (by decide))
  have hcolR : ':' ∉ pad2 S ++ '.' :: pad2 C := by
    intro hmem
    rcases List.mem_append.mp hmem with hmem | hmem
    · exact absurd rfl (digit_ne ':' (hSd ':' hmem) ':' (by decide))
    · rcases List.mem_cons.mp hmem with hmem | hmem
      · exact absurd hmem (by decide)
      · exact absurd rfl (digit_ne ':' (hCd ':' hmem) ':' (by decide))
  have hA : pyInt? (natToChars H.toNat) = some H := by
    rw [pyInt?_natToChars, Int.toNat_of_nonneg hH0]
  have hB : pyInt? (pad2 M) = some M := by
    rw [pyInt?_digits _ (pad2_ne_nil M) hBd, digitsToNat_pad2 M hM0,
      Int.toNat_of_nonneg hM0]
  have hScast : ((S.toNat : ℕ) : ℚ) = (S : ℚ) := by
    rw [← Int.cast_natCast, Int.toNat_of_nonneg hS0]
  have hCcast : ((C.toNat : ℕ) : ℚ) = (C : ℚ) := by
    rw [← Int.cast_natCast, Int.toNat_of_nonneg hC0]
  have hR : pyFloat? (pad2 S ++ '.' :: pad2 C) = some ((S : ℚ) + (C : ℚ) / 100) := by
    rw [pyFloat?_pad_pair S C hS0 hC0 hC99, hScast, hCcast]
  refine ⟨(H : ℚ) * 3600 + (M : ℚ) * 60 + ((S : ℚ) + (C : ℚ) / 100), ?_, ?_, ?_⟩
  · rw [parse_vtt_time_to_seconds?, hform,
      replaceCharBy_eq_self ',' ['.'] _ (hform ▸ hnc)]
    rw [splitOnChar_append ':' _ _ hcolA, splitOnChar_append ':' _ _ hcolB,
      splitOnChar_not_mem ':' _ hcolR]
    simp [hA, hB, hR]
  · have hfl : (H : ℚ) * 3600 + (M : ℚ) * 60 + (S : ℚ) = (⌊x⌋ : ℚ) := by
      rw [hH, hM, hS]
      push_cast
      ring
    have h1 : ((C : ℤ) : ℚ) ≤ 100 * (x - ⌊x⌋) := Int.floor_le _
    have h2 : (⌊x⌋ : ℚ) ≤ x := Int.floor_le x
    linarith
  · have hfl : (H : ℚ) * 3600 + (M : ℚ) * 60 + (S : ℚ) = (⌊x⌋ : ℚ) := by
      rw [hH, hM, hS]
      push_cast
      ring
    have h1 : 100 * (x - ⌊x⌋) < (C : ℚ) + 1 := Int.lt_floor_add_one _
    linarith

/-- Witness for C6 at the concrete time 0. -/
theorem C6_timestamp_roundtrip_witness :
    (0 ≤ (0 : ℚ)) ∧
      ∃ y, parse_vtt_time_to_seconds? (sec_to_cue_timestamp 0) = some y ∧
        0 ≤ (0 : ℚ) - y ∧ (0 : ℚ) - y < 1 / 100 :=
  ⟨le_rfl, C6_timestamp_roundtrip 0 le_rfl⟩

/-! ## Cue parsing (`extract_transcript_for_segment`, `extract_vtt_segment`,
`parse_vtt_captions`)

Documents are character lists; the scanners work on the `'\n'`-split line
list exactly as the sources' index loops do (recursing on the suffix the
loop continues from).  Python exceptions caught by `try` skip a cue;
uncaught ones abort the whole parse (`Except`). -/

def arrowStr : Str := ['-', '-', '>']

def arrowSep : Str := [' ', '-', '-', '>', ' ']

/-- Python `str.isdigit()` (ASCII): non-empty and all digits. -/
def pyIsDigitStr (t : Str) : Bool := decide (t ≠ []) && t.all isDigitChar

/-- Replace every (leftmost, non-overlapping) occurrence of `pat`. -/
def replaceSubAux (pat rep : Str) : ℕ → Str → Str
  | 0, l => l
  | _ + 1, [] => []
  | fuel + 1, x :: xs =>
    if pat ≠ [] ∧ isPrefixB pat (x :: xs) then
      rep ++ replaceSubAux pat rep fuel ((x :: xs).drop pat.length)
    else x :: replaceSubAux pat rep fuel xs

/-- Python `str.replace(pat, rep)` for a non-empty pattern. -/
def replaceSub (pat rep l : Str) : Str := replaceSubAux pat rep l.length l

/-- `' '.join(text_lines).replace('&nbsp;', ' ').strip()` followed by
`re.sub(r'\s+', ' ', text)`: on stripped text, collapsing whitespace runs
is joining the whitespace-split words with single spaces. -/
def cleanupText (t : Str) : Str :=
  joinSp (pySplitWs (pyStrip (replaceSub "&nbsp;".data [' '] t)))

/-- `time_line.split(' --> ')` with exactly two parts, each side parsed by
`parse_vtt_time_to_seconds`; `none` models the `ValueError` the `try`
around it catches. -/
def parseTimePair (time_line : Str) : Option (ℚ × ℚ) :=
  match splitOnSub arrowSep time_line with
  | [a, b] =>
    match parse_vtt_time_to_seconds? (pyStrip a),
        parse_vtt_time_to_seconds? (pyStrip b) with
    | some s, some e => some (s, e)
    | _, _ => none
  | _ => none

/-- The line loop of `extract_transcript_for_segment`: on a `-->` line,
gather the following non-blank lines, parse the time pair inside `try`
(failure skips the cue), keep the cue when `seg_start <= end_sec and
seg_end >= start_sec`, and resume at the blank line. -/
def wscan (start_sec end_sec : ℚ) : List Str → List Seg
  | [] => []
  | l :: rest =>
    if containsSub arrowStr (pyStrip l) = true then
      (if (rest.takeWhile fun r => pyStrip r ≠ []).map pyStrip ≠ [] then
        match parseTimePair (pyStrip l) with
        | some (segStart, segEnd) =>
          if segStart ≤ end_sec ∧ segEnd ≥ start_sec then
            [⟨segStart, segEnd, cleanupText (joinSp
              ((rest.takeWhile fun r => pyStrip r ≠ []).map pyStrip))⟩]
          else []
        | none => []
      else []) ++ wscan start_sec end_sec (rest.dropWhile fun r => pyStrip r ≠ [])
    else wscan start_sec end_sec rest
termination_by l => l.length
decreasing_by
  all_goals simp only [List.length_cons]
  all_goals first
    | omega
    | exact Nat.lt_succ_of_le (List.dropWhile_suffix _).length_le

/-- The same scan with no time window: every parsable cue is kept. -/
def wscanAll : List Str → List Seg
  | [] => []
  | l :: rest =>
    if containsSub arrowStr (pyStrip l) = true then
      (if (rest.takeWhile fun r => pyStrip r ≠ []).map pyStrip ≠ [] then
        match parseTimePair (pyStrip l) with
        | some (segStart, segEnd) =>
          [⟨segStart, segEnd, cleanupText (joinSp
            ((rest.takeWhile fun r => pyStrip r ≠ []).map pyStrip))⟩]
        | none => []
      else []) ++ wscanAll (rest.dropWhile fun r => pyStrip r ≠ [])
    else wscanAll rest
termination_by l => l.length
decreasing_by
  all_goals simp only [List.length_cons]
  all_goals first
    | omega
    | exact Nat.lt_succ_of_le (List.dropWhile_suffix _).length_le

/-- Stable insertion by start time (the model of Python's stable `sorted`
with `key=lambda x: x['start']`). -/
def insertByStart (x : Seg) : List Seg → List Seg
  | [] => [x]
  | y :: ys => if y.start ≤ x.start then y :: insertByStart x ys else x :: y :: ys

def sortByStart (l : List Seg) : List Seg :=
  l.foldl (fun acc x => insertByStart x acc) []

/-- `extract_transcript_for_segment` from `create_word_captions.py`,
taking the VTT document text. -/
def extract_transcript_for_segment (content : Str) (start_sec end_sec : ℚ) :
    List Seg :=
  sortByStart (wscan start_sec end_sec (splitOnChar nlChar content))

/-- The line loop of `extract_vtt_segment` (`create_smart_captions.py`):
text lines skip pure-digit lines, the time pair is parsed with no `try`
(failure aborts the whole call), and the window test is strict
(`seg_start < end_sec and seg_end > start_sec`). -/
def sscan (start_sec end_sec : ℚ) : List Str → Except Unit (List Seg)
  | [] => .ok []
  | l :: rest =>
    if containsSub arrowStr (pyStrip l) = true then
      if (((rest.takeWhile fun r => pyStrip r ≠ []).map pyStrip).filter
          fun t => decide (t ≠ []) && !pyIsDigitStr t) ≠ [] then
        match splitOnSub arrowSep (pyStrip l) with
        | [a, b] =>
          match parse_vtt_time_to_seconds? (pyStrip a),
              parse_vtt_time_to_seconds? (pyStrip b) with
          | some segStart, some segEnd =>
            (fun segs =>
              (if segStart < end_sec ∧ segEnd > start_sec then
                [⟨segStart, segEnd, joinSp
                  (((rest.takeWhile fun r => pyStrip r ≠ []).map pyStrip).filter
                    fun t => decide (t ≠ []) && !pyIsDigitStr t)⟩]
              else []) ++ segs) <$>
              sscan start_sec end_sec (rest.dropWhile fun r => pyStrip r ≠ [])
          | _, _ => .error ()
        | _ => .error ()
      else sscan start_sec end_sec (rest.dropWhile fun r => pyStrip r ≠ [])
    else sscan start_sec end_sec rest
termination_by l => l.length
decreasing_by
  all_goals simp only [List.length_cons]
  all_goals first
    | omega
    | exact Nat.lt_succ_of_le (List.dropWhile_suffix _).length_le

/-- The same scan keeping every parsable cue (no window test). -/
def sscanAll : List Str → Except Unit (List Seg)
  | [] => .ok []
  | l :: rest =>
    if containsSub arrowStr (pyStrip l) = true then
      if (((rest.takeWhile fun r => pyStrip r ≠ []).map pyStrip).filter
          fun t => decide (t ≠ []) && !pyIsDigitStr t) ≠ [] then
        match splitOnSub arrowSep (pyStrip l) with
        | [a, b] =>
          match parse_vtt_time_to_seconds? (pyStrip a),
              parse_vtt_time_to_seconds? (pyStrip b) with
          | some segStart, some segEnd =>
            (fun segs => [(⟨segStart, segEnd, joinSp
              (((rest.takeWhile fun r => pyStrip r ≠ []).map pyStrip).filter
                fun t => decide (t ≠ []) && !pyIsDigitStr t)⟩ : Seg)] ++ segs) <$>
              sscanAll (rest.dropWhile fun r => pyStrip r ≠ [])
          | _, _ => .error ()
        | _ => .error ()
      else sscanAll (rest.dropWhile fun r => pyStrip r ≠ [])
    else sscanAll rest
termination_by l => l.length
decreasing_by
  all_goals simp only [List.length_cons]
  all_goals first
    | omega
    | exact Nat.lt_succ_of_le (List.dropWhile_suffix _).length_le

/-- The cue records `extract_vtt_segment` selects for the window. -/
def extract_vtt_segment_segments (content : Str) (start_sec end_sec : ℚ) :
    Except Unit (List Seg) :=
  sscan start_sec end_sec (splitOnChar nlChar content)

/-- `extract_vtt_segment` itself: the selected cues' texts joined. -/
def extract_vtt_segment (content : Str) (start_sec end_sec : ℚ) :
    Except Unit Str :=
  (extract_vtt_segment_segments content start_sec end_sec).map fun segs =>
    pyStrip (joinSp (segs.map (·.text)))

/-- `vtt_time_to_seconds` from `find_highlights.py`: three fields, two
fields, or — unlike the other parser — a bare `float(parts[0])` fallback
for any other field count. -/
def vtt_time_to_seconds? (time_str : Str) : Option ℚ :=
  match splitOnChar ':' time_str with
  | [h, m, s] =>
    match pyInt? h, pyInt? m, pyFloat? s with
    | some hv, some mv, some sv => some ((hv : ℚ) * 3600 + (mv : ℚ) * 60 + sv)
    | _, _, _ => none
  | [m, s] =>
    match pyInt? m, pyFloat? s with
    | some mv, some sv => some ((mv : ℚ) * 60 + sv)
    | _, _ => none
  | p :: _ => pyFloat? p
  | [] => none

/-- The inline VTT markup stripping of `parse_vtt_captions`. -/
def cleanMarkup (t : Str) : Str :=
  replaceSub ['>'] []
    (replaceSub ['<', 'v', ' '] []
      (replaceSub ['<', '/', 'c', '>'] []
        (replaceSub ['<', 'c', '>'] [] t)))

/-- Is this a header / blank / comment / numeric-index line? -/
def fhSkip (line : Str) : Bool :=
  isPrefixB "WEBVTT".data line || decide (line = []) ||
    isPrefixB "NOTE".data line || pyIsDigitStr line

/-- Text lines of a `find_highlights` cue continue until a blank line or
the next `-->` line. -/
def fhMore (r : Str) : Bool :=
  !containsSub arrowStr (pyStrip r) && decide (pyStrip r ≠ [])

/-- The line loop of `parse_vtt_captions` (`find_highlights.py`): header
and index lines are skipped; on a `-->` line with exactly two parts the
times are parsed with no `try` (a non-numeric field aborts the whole
parse); text lines are stripped of markup and digit-only lines. -/
def fhKeepText (t : Str) : Option Str :=
  if pyIsDigitStr t then none
  else if cleanMarkup t ≠ [] then some (cleanMarkup t) else none

def fhscan : List Str → Except Unit (List Seg)
  | [] => .ok []
  | l :: rest =>
    if fhSkip (pyStrip l) = true then fhscan rest
    else if containsSub arrowStr (pyStrip l) = true then
      match splitOnSub arrowSep (pyStrip l) with
      | [p1, p2] =>
        match vtt_time_to_seconds? p1, vtt_time_to_seconds? p2 with
        | some segStart, some segEnd =>
          (fun segs =>
            (if ((rest.takeWhile fhMore).map pyStrip).filterMap fhKeepText ≠ [] then
              [⟨segStart, segEnd,
                joinSp (((rest.takeWhile fhMore).map pyStrip).filterMap fhKeepText)⟩]
            else []) ++ segs) <$> fhscan (rest.dropWhile fhMore)
        | _, _ => .error ()
      | _ => fhscan rest
    else fhscan rest
termination_by l => l.length
decreasing_by
  all_goals simp only [List.length_cons]
  all_goals first
    | omega
    | exact Nat.lt_succ_of_le (List.dropWhile_suffix _).length_le

/-- The parsing core of `parse_vtt_captions` applied to a document. -/
def parse_vtt_captions (content : Str) : Except Unit (List Seg) :=
  fhscan (splitOnChar nlChar content)

/-- The windowed word-captions scan is the unwindowed scan filtered by the
inclusive overlap test. -/
theorem wscan_eq_filter (s e : ℚ) : ∀ lines : List Str,
    wscan s e lines = (wscanAll lines).filter
      fun seg => decide (seg.start ≤ e) && decide (s ≤ seg.stop) := by
  have key : ∀ (n : ℕ) (lines : List Str), lines.length = n →
      wscan s e lines = (wscanAll lines).filter
        fun seg => decide (seg.start ≤ e) && decide (s ≤ seg.stop) := by
    intro n
    induction n using Nat.strong_induction_on with
    | _ n ih =>
      intro lines hn
      cases lines with
      | nil => simp [wscan, wscanAll]
      | cons l rest =>
        subst hn
        rw [wscan, wscanAll]
        by_cases harrow : containsSub arrowStr (pyStrip l) = true
        · rw [if_pos harrow, if_pos harrow, List.filter_append]
          have hlen : (rest.dropWhile fun r => pyStrip r ≠ []).length <
              (l :: rest).length :=
            Nat.lt_succ_of_le (List.dropWhile_suffix _).length_le
          congr 1
          · by_cases htext :
                ((rest.takeWhile fun r => pyStrip r ≠ []).map pyStrip) ≠ []
            · rw [if_pos htext, if_pos htext]
              rcases hparse : parseTimePair (pyStrip l) with _ | ⟨s1, e1⟩
              · simp
              · simp only
                by_cases hcond : s1 ≤ e ∧ e1 ≥ s
                · rw [if_pos hcond]
                  simp [hcond.1, ge_iff_le.mp hcond.2]
                · rw [if_neg hcond]
                  rw [not_and_or] at hcond
                  rcases hcond with hcond | hcond <;> simp [hcond]
            · rw [if_neg htext, if_neg htext]
              simp
          · exact ih _ hlen _ rfl
        · rw [if_neg harrow, if_neg harrow]
          exact ih rest.length (by simp) rest rfl
  intro lines
  exact key lines.length lines rfl

/-- A functorial map over `Except.ok`. -/
theorem fmap_ok {α β : Type} (f : α → β) (a : α) :
    f <$> (Except.ok a : Except Unit α) = Except.ok (f a) := rfl

/-- A functorial map over `Except.error`. -/
theorem fmap_error {α β ε : Type} (f : α → β) (u : ε) :
    f <$> (Except.error u : Except ε α) = Except.error u := rfl

/-- `Except.map` over `Except.ok`. -/
theorem emap_ok {α β : Type} (f : α → β) (a : α) :
    Except.map f (Except.ok a : Except Unit α) = Except.ok (f a) := rfl

/-- `Except.map` over `Except.error`. -/
theorem emap_error {α β ε : Type} (f : α → β) (u : ε) :
    Except.map f (Except.error u : Except ε α) = Except.error u := rfl

/-- The windowed smart-captions scan is the unwindowed scan with the strict
overlap filter applied to its cue list (and the same error behaviour). -/
theorem sscan_eq_filter (s e : ℚ) : ∀ lines : List Str,
    sscan s e lines = Except.map
      (List.filter fun seg => decide (seg.start < e) && decide (s < seg.stop))
      (sscanAll lines) := by
  have key : ∀ (n : ℕ) (lines : List Str), lines.length = n →
      sscan s e lines = Except.map
        (List.filter fun seg => decide (seg.start < e) && decide (s < seg.stop))
        (sscanAll lines) := by
    intro n
    induction n using Nat.strong_induction_on with
    | _ n ih =>
      intro lines hn
      cases lines with
      | nil => rw [sscan, sscanAll]; rfl
      | cons l rest =>
        subst hn
        rw [sscan, sscanAll]
        by_cases harrow : containsSub arrowStr (pyStrip l) = true
        · rw [if_pos harrow, if_pos harrow]
          have hlen : (rest.dropWhile fun r => pyStrip r ≠ []).length <
              (l :: rest).length :=
            Nat.lt_succ_of_le (List.dropWhile_suffix _).length_le
          by_cases htext :
              (((rest.takeWhile fun r => pyStrip r ≠ []).map pyStrip).filter
                fun t => decide (t ≠ []) && !pyIsDigitStr t) ≠ []
          · rw [if_pos htext, if_pos htext]
            rcases hsplit : splitOnSub arrowSep (pyStrip l) with
              _ | ⟨a, _ | ⟨b, _ | ⟨c, tl⟩⟩⟩
            · rfl
            · rfl
            · rcases ha : parse_vtt_time_to_seconds? (pyStrip a) with _ | s1
              · simp only [ha, emap_error]
              · rcases hb : parse_vtt_time_to_seconds? (pyStrip b) with _ | e1
                · simp only [ha, hb, emap_error]
                · simp only [ha, hb]
                  have hih := ih _ hlen _ rfl
                  rcases hrec :
                      sscanAll (rest.dropWhile fun r => pyStrip r ≠ []) with
                    u | segs
                  · rw [hrec, emap_error] at hih
                    rw [hih]
                    simp only [fmap_error, emap_error]
                  · rw [hrec, emap_ok] at hih
                    rw [hih]
                    simp only [fmap_ok, emap_ok]
                    congr 1
                    rw [List.filter_append]
                    congr 1
                    by_cases hcond : s1 < e ∧ e1 > s
                    · rw [if_pos hcond]
                      simp [List.filter, hcond.1, hcond.2]
                    · rw [if_neg hcond]
                      rw [not_and_or] at hcond
                      rcases hcond with h | h <;> simp [List.filter, h]
            · rfl
          · rw [if_neg htext, if_neg htext]
            exact ih _ hlen _ rfl
        · rw [if_neg harrow, if_neg harrow]
          exact ih rest.length (by simp) rest rfl
  intro lines
  exact key lines.length lines rfl

/-- **C4.** (corrected)  The two window extractors disagree with the
claimed strict test.  `extract_vtt_segment` does select by the strict
overlap test `seg_start < windowEnd ∧ seg_end > windowStart` preserving the
cues' original order (its cue list is the unwindowed scan filtered), but
`extract_transcript_for_segment` selects by the inclusive test
`seg_start ≤ windowEnd ∧ seg_end ≥ windowStart` — a cue touching the window
only at an endpoint is included — and then re-sorts the survivors by start
time. -/
theorem C4_window_selection :
    (∀ (content : Str) (s e : ℚ),
      extract_vtt_segment_segments content s e = Except.map
        (List.filter fun seg => decide (seg.start < e) && decide (s < seg.stop))
        (sscanAll (splitOnChar nlChar content))) ∧
    (∀ (content : Str) (s e : ℚ),
      extract_transcript_for_segment content s e = sortByStart
        ((wscanAll (splitOnChar nlChar content)).filter
          fun seg => decide (seg.start ≤ e) && decide (s ≤ seg.stop))) :=
  ⟨fun content s e => sscan_eq_filter s e (splitOnChar nlChar content),
   fun content s e =>
    congrArg sortByStart (wscan_eq_filter s e (splitOnChar nlChar content))⟩

/-- **C4 counterexample.**  With window `[0, 2]`, a cue starting exactly at
the window end (`start = 2`) is returned by
`extract_transcript_for_segment` even though the claimed strict test
`cue.start < windowEnd` fails (`2 < 2` is false): the selection is
inclusive, not strict. -/
theorem C4_counterexample :
    extract_transcript_for_segment "0:0:2.0 --> 0:0:3.0\nhi".data 0 2
      = [⟨2, 3, ['h', 'i']⟩] ∧ ¬ ((2 : ℚ) < 2) := by
  refine ⟨?_, by norm_num⟩
  have e4 : pyFloat? "2.0".data = some 2 := by
    simp [pyFloat?, decLit?, pyStrip, dropLeadWs, dropTrailWs, isWs, splitSign,
      splitOnChar, digitsToNat, isDigitChar, nlChar]
  have e5 : pyFloat? "3.0".data = some 3 := by
    simp [pyFloat?, decLit?, pyStrip, dropLeadWs, dropTrailWs, isWs, splitSign,
      splitOnChar, digitsToNat, isDigitChar, nlChar]
  have h5 : parse_vtt_time_to_seconds? "0:0:2.0".data = some 2 := by
    simp only [parse_vtt_time_to_seconds?,
      show replaceCharBy ',' ['.'] "0:0:2.0".data = "0:0:2.0".data from by decide,
      show splitOnChar ':' "0:0:2.0".data = ["0".data, "0".data, "2.0".data]
        from by decide,
      show pyInt? "0".data = some 0 from by decide, e4]
    norm_num
  have h6 : parse_vtt_time_to_seconds? "0:0:3.0".data = some 3 := by
    simp only [parse_vtt_time_to_seconds?,
      show replaceCharBy ',' ['.'] "0:0:3.0".data = "0:0:3.0".data from by decide,
      show splitOnChar ':' "0:0:3.0".data = ["0".data, "0".data, "3.0".data]
        from by decide,
      show pyInt? "0".data = some 0 from by decide, e5]
    norm_num
  have hp : parseTimePair (pyStrip "0:0:2.0 --> 0:0:3.0".data) = some (2, 3) := by
    simp only [parseTimePair,
      show pyStrip "0:0:2.0 --> 0:0:3.0".data = "0:0:2.0 --> 0:0:3.0".data
        from by decide,
      show splitOnSub arrowSep "0:0:2.0 --> 0:0:3.0".data
          = ["0:0:2.0".data, "0:0:3.0".data] from by decide,
      show pyStrip "0:0:2.0".data = "0:0:2.0".data from by decide,
      show pyStrip "0:0:3.0".data = "0:0:3.0".data from by decide,
      h5, h6]
  rw [extract_transcript_for_segment,
    show splitOnChar nlChar "0:0:2.0 --> 0:0:3.0\nhi".data
      = ["0:0:2.0 --> 0:0:3.0".data, "hi".data] from by decide]
  rw [wscan]
  rw [if_pos (show containsSub arrowStr (pyStrip "0:0:2.0 --> 0:0:3.0".data)
    = true from by decide)]
  rw [if_pos (show (List.map pyStrip
    (List.takeWhile (fun r => pyStrip r ≠ []) ["hi".data])) ≠ [] from by decide)]
  simp only [hp]
  rw [if_pos (show (2 : ℚ) ≤ 2 ∧ (3 : ℚ) ≥ 0 from by norm_num)]
  rw [show List.dropWhile (fun r => pyStrip r ≠ []) ["hi".data] = ([] : List Str)
    from by decide]
  rw [show wscan (0 : ℚ) 2 ([] : List Str) = [] from by rw [wscan]]
  rw [show cleanupText (joinSp (List.map pyStrip
    (List.takeWhile (fun r => pyStrip r ≠ []) ["hi".data]))) = ['h', 'i']
    from by decide]
  rw [List.append_nil]
  rfl

/-- **C7.** (corrected)  Resilience to malformed timestamp lines holds for
`extract_transcript_for_segment` — a cue block whose timestamp has the
wrong field count is skipped and the scan of the remaining lines is
unchanged — but not for `parse_vtt_captions` in `find_highlights.py`: a
timestamp with a non-numeric field makes the whole parse raise, whatever
well-formed cues follow. -/
theorem C7_malformed_cue_resilience :
    (∀ (s e : ℚ) (lines : List Str),
      wscan s e ("1:2:3:4 --> 0:0:5".data :: "text".data :: ([] : Str) :: lines)
        = wscan s e lines) ∧
    (∀ lines : List Str,
      fhscan ("xx:0:1.0 --> 0:0:2.0".data :: "bad".data :: lines)
        = Except.error ()) := by
  constructor
  · intro s e lines
    have ht : List.map pyStrip (List.takeWhile (fun r => pyStrip r ≠ [])
        ("text".data :: ([] : Str) :: lines)) = ["text".data] := by
      rw [List.takeWhile_cons,
        if_pos (show decide (pyStrip "text".data ≠ []) = true from by decide),
        List.takeWhile_cons,
        if_neg (show ¬ decide (pyStrip ([] : Str) ≠ []) = true from by decide)]
      decide
    have hd : List.dropWhile (fun r => pyStrip r ≠ [])
        ("text".data :: ([] : Str) :: lines) = ([] : Str) :: lines := by
      rw [List.dropWhile_cons,
        if_pos (show decide (pyStrip "text".data ≠ []) = true from by decide),
        List.dropWhile_cons,
        if_neg (show ¬ decide (pyStrip ([] : Str) ≠ []) = true from by decide)]
    rw [wscan]
    rw [if_pos (show containsSub arrowStr (pyStrip "1:2:3:4 --> 0:0:5".data)
      = true from by decide)]
    rw [ht]
    rw [if_pos (show (["text".data] : List Str) ≠ [] from by decide)]
    simp only [show parseTimePair (pyStrip "1:2:3:4 --> 0:0:5".data) = none
      from by decide]
    rw [hd, List.nil_append, wscan]
    rw [if_neg (show ¬ containsSub arrowStr (pyStrip ([] : Str)) = true
      from by decide)]
  · intro lines
    rw [fhscan]
    rw [if_neg (show ¬ fhSkip (pyStrip "xx:0:1.0 --> 0:0:2.0".data) = true
      from by decide)]
    rw [if_pos (show containsSub arrowStr (pyStrip "xx:0:1.0 --> 0:0:2.0".data)
      = true from by decide)]
    simp only [show splitOnSub arrowSep (pyStrip "xx:0:1.0 --> 0:0:2.0".data)
        = ["xx:0:1.0".data, "0:0:2.0".data] from by decide,
      show vtt_time_to_seconds? "xx:0:1.0".data = none from by decide]

/-- **C7 counterexample.**  A document holding one well-formed cue and one
cue with a non-numeric timestamp field makes `parse_vtt_captions` raise
(`Except.error`), instead of skipping the bad cue and returning the
well-formed sibling — which, alone, it parses fine. -/
theorem C7_counterexample :
    parse_vtt_captions
        "WEBVTT\n\n0:0:1.0 --> 0:0:2.0\ngood\n\nxx:0:3.0 --> 0:0:4.0\nbad".data
      = Except.error () ∧
    parse_vtt_captions "WEBVTT\n\n0:0:1.0 --> 0:0:2.0\ngood".data
      = Except.ok [⟨1, 2, ['g', 'o', 'o', 'd']⟩] := by
  have f1 : pyFloat? "1.0".data = some 1 := by
    simp [pyFloat?, decLit?, pyStrip, dropLeadWs, dropTrailWs, isWs, splitSign,
      splitOnChar, digitsToNat, isDigitChar, nlChar]
  have f2 : pyFloat? "2.0".data = some 2 := by
    simp [pyFloat?, decLit?, pyStrip, dropLeadWs, dropTrailWs, isWs, splitSign,
      splitOnChar, digitsToNat, isDigitChar, nlChar]
  have hv1 : vtt_time_to_seconds? "0:0:1.0".data = some 1 := by
    simp only [vtt_time_to_seconds?,
      show splitOnChar ':' "0:0:1.0".data = ["0".data, "0".data, "1.0".data]
        from by decide,
      show pyInt? "0".data = some 0 from by decide, f1]
    norm_num
  have hv2 : vtt_time_to_seconds? "0:0:2.0".data = some 2 := by
    simp only [vtt_time_to_seconds?,
      show splitOnChar ':' "0:0:2.0".data = ["0".data, "0".data, "2.0".data]
        from by decide,
      show pyInt? "0".data = some 0 from by decide, f2]
    norm_num
  constructor
  · rw [parse_vtt_captions,
      show splitOnChar nlChar
          "WEBVTT\n\n0:0:1.0 --> 0:0:2.0\ngood\n\nxx:0:3.0 --> 0:0:4.0\nbad".data
        = ["WEBVTT".data, ([] : Str), "0:0:1.0 --> 0:0:2.0".data, "good".data,
            ([] : Str), "xx:0:3.0 --> 0:0:4.0".data, "bad".data] from by decide]
    rw [fhscan, if_pos (show fhSkip (pyStrip "WEBVTT".data) = true from by decide)]
    rw [fhscan, if_pos (show fhSkip (pyStrip ([] : Str)) = true from by decide)]
    rw [fhscan,
      if_neg (show ¬ fhSkip (pyStrip "0:0:1.0 --> 0:0:2.0".data) = true
        from by decide),
      if_pos (show containsSub arrowStr (pyStrip "0:0:1.0 --> 0:0:2.0".data)
        = true from by decide)]
    simp only [show splitOnSub arrowSep (pyStrip "0:0:1.0 --> 0:0:2.0".data)
        = ["0:0:1.0".data, "0:0:2.0".data] from by decide, hv1, hv2]
    rw [show List.dropWhile fhMore
        ["good".data, ([] : Str), "xx:0:3.0 --> 0:0:4.0".data, "bad".data]
        = [([] : Str), "xx:0:3.0 --> 0:0:4.0".data, "bad".data] from by decide]
    rw [fhscan, if_pos (show fhSkip (pyStrip ([] : Str)) = true from by decide)]
    rw [fhscan,
      if_neg (show ¬ fhSkip (pyStrip "xx:0:3.0 --> 0:0:4.0".data) = true
        from by decide),
      if_pos (show containsSub arrowStr (pyStrip "xx:0:3.0 --> 0:0:4.0".data)
        = true from by decide)]
    simp only [show splitOnSub arrowSep (pyStrip "xx:0:3.0 --> 0:0:4.0".data)
        = ["xx:0:3.0".data, "0:0:4.0".data] from by decide,
      show vtt_time_to_seconds? "xx:0:3.0".data = none from by decide]
    simp only [fmap_error]
  · rw [parse_vtt_captions,
      show splitOnChar nlChar "WEBVTT\n\n0:0:1.0 --> 0:0:2.0\ngood".data
        = ["WEBVTT".data, ([] : Str), "0:0:1.0 --> 0:0:2.0".data, "good".data]
        from by decide]
    rw [fhscan, if_pos (show fhSkip (pyStrip "WEBVTT".data) = true from by decide)]
    rw [fhscan, if_pos (show fhSkip (pyStrip ([] : Str)) = true from by decide)]
    rw [fhscan,
      if_neg (show ¬ fhSkip (pyStrip "0:0:1.0 --> 0:0:2.0".data) = true
        from by decide),
      if_pos (show containsSub arrowStr (pyStrip "0:0:1.0 --> 0:0:2.0".data)
        = true from by decide)]
    simp only [show splitOnSub arrowSep (pyStrip "0:0:1.0 --> 0:0:2.0".data)
        = ["0:0:1.0".data, "0:0:2.0".data] from by decide, hv1, hv2]
    rw [show List.dropWhile fhMore ["good".data] = ([] : List Str) from by decide]
    rw [show fhscan ([] : List Str) = Except.ok [] from by rw [fhscan]]
    simp only [fmap_ok]
    rw [show List.filterMap fhKeepText
        (List.map pyStrip (List.takeWhile fhMore ["good".data]))
        = [['g', 'o', 'o', 'd']] from by decide]
    rw [if_pos (show ([['g', 'o', 'o', 'd']] : List Str) ≠ [] from by decide)]
    rw [List.append_nil]
    rfl
